import Mathlib

/-!
# Verification of the mobx-vue-bridge synchronization core

A shallow embedding, in Lean 4, of the parts of `mobx-vue-bridge` that its
specification talks about:

* `src/utils/equality.js` — the circular-reference-safe deep equality
  comparator `isEqual` (the current, `Map`-of-visited-pairs variant);
* `src/mobxVueBridge.js` (`useMobxBridge`) — the property / getter-setter /
  setter-only / method descriptors installed on the bridging object, the
  echo-guard sets, and the lazy read-only detection;
* `src/utils/deepProxy.js` — the deep mutation proxy's `set` trap and its
  batched flush;
* `src/utils/memberDetection.js` (`categorizeMobxMembers`) — member
  classification;
* the observation wiring (`setupPropertyObservation` and the
  `observeProperty` / `deepObserveProperty` helpers), including deep-observe
  re-subscription on wholesale reassignment.

JavaScript values are modelled as a heap of numbered object/array nodes plus
primitive leaves, so that reference identity, shared substructure and cyclic
object graphs — all of which `isEqual` is sensitive to — are representable.
All recursive traversals carry an explicit fuel parameter and return
`Option`; fuel exhaustion (or a dangling address, which real JS cannot
produce) yields `none`.
-/

namespace MVB

/-! ## JavaScript numbers

Only the distinctions `isEqual` can observe are modelled: `NaN`, negative
zero, and ordinary (integer-represented) numbers.  `strictEq` is JS `===` on
numbers (`NaN` unequal to everything, `-0 === +0`), `objIs` is `Object.is`
(`NaN` equal to itself, `-0` distinct from `+0`). -/

inductive JNum where
  | nan : JNum
  | negZero : JNum
  | int : Int → JNum
deriving Repr, DecidableEq

def JNum.strictEq : JNum → JNum → Bool
  | .nan, _ => false
  | _, .nan => false
  | .negZero, .negZero => true
  | .negZero, .int n => n == 0
  | .int n, .negZero => n == 0
  | .int m, .int n => m == n

def JNum.objIs : JNum → JNum → Bool
  | .nan, .nan => true
  | .negZero, .negZero => true
  | .int m, .int n => m == n
  | _, _ => false

/-- `Number.isNaN`. -/
def JNum.isNaN : JNum → Bool
  | .nan => true
  | _ => false

/-- The number branch of `isEqual` (equality.js lines 17–22):
`if (Number.isNaN(a) && Number.isNaN(b)) return true; return a === b;` -/
def JNum.isEqualNum (a b : JNum) : Bool :=
  (a.isNaN && b.isNaN) || JNum.strictEq a b

/-- Normal form under `isEqualNum`: `-0` is identified with `+0`. -/
def JNum.norm : JNum → JNum
  | .negZero => .int 0
  | x => x

/-! ## Values, heaps and nodes -/

inductive JPrim where
  | null : JPrim
  | undef : JPrim
  | bool : Bool → JPrim
  | str : String → JPrim
  | num : JNum → JPrim
deriving Repr, DecidableEq

/-- A JS value: a primitive, or a reference to a heap node. -/
inductive JVal where
  | prim : JPrim → JVal
  | ref : Nat → JVal
deriving Repr, DecidableEq

/-- A heap node: an array of values, or a plain object given as an ordered
field list (insertion order, as `Object.keys` reports it). -/
inductive JObj where
  | arr : List JVal → JObj
  | obj : List (String × JVal) → JObj
deriving Repr, DecidableEq

abbrev Heap := List JObj

/-- `a == null` (loose nullish test). -/
def JVal.isNullish : JVal → Bool
  | .prim .null => true
  | .prim .undef => true
  | _ => false

/-- JS `typeof`, restricted to the modelled values. -/
def JVal.typeOf : JVal → String
  | .prim .null => "object"
  | .prim .undef => "undefined"
  | .prim (.bool _) => "boolean"
  | .prim (.str _) => "string"
  | .prim (.num _) => "number"
  | .ref _ => "object"

/-- `Object.is`.  On references this is reference identity; on primitives it
is value identity except that `NaN` matches itself and `-0` ≠ `+0`. -/
def JVal.objIs : JVal → JVal → Bool
  | .prim (.num x), .prim (.num y) => JNum.objIs x y
  | .prim p, .prim q => p == q
  | .ref a, .ref b => a == b
  | _, _ => false

/-- Association lookup in the visited map (`Map` keyed by left-hand object
reference). -/
def alookup : List (Nat × Nat) → Nat → Option Nat
  | [], _ => none
  | (k, v) :: rest, a => if k = a then some v else alookup rest a

/-- `a[key]` on an object node's field list (first match; JS objects never
carry duplicate keys, so on well-formed nodes this is the only match). -/
def fget : List (String × JVal) → String → JVal
  | [], _ => .prim .undef
  | (k, v) :: rest, key => if k = key then v else fget rest key

/-! ## `isEqual` (equality.js, current Map-based variant)

The traversal mirrors the source line by line: nullish check, the numeric
branch, `Object.is`, `typeof` comparison, the non-object early exit, then
the visited-pair check `visited.get(a) === b`, followed by array / key-set /
recursive field comparison.  The mutable `visited` Map is threaded as state.
The fuel parameter bounds the nesting *depth* that can be explored: it is
consumed when descending into an object node, and list/field iteration at
one level proceeds at constant fuel. -/

/-- One level of `a.every((val, i) => isEqual(val, b[i], visited))`:
element-wise comparison threading the visited map, short-circuiting on the
first `false`.  The element comparison is a parameter so the whole traversal
is structurally recursive (and so kernel-reducible). -/
def eqListH (f : JVal → JVal → List (Nat × Nat) → Option (Bool × List (Nat × Nat))) :
    List JVal → List JVal → List (Nat × Nat) → Option (Bool × List (Nat × Nat))
  | [], _, vis => some (true, vis)
  | _ :: _, [], vis => some (true, vis)
  | x :: xs, y :: ys, vis =>
    match f x y vis with
    | none => none
    | some (false, vis') => some (false, vis')
    | some (true, vis') => eqListH f xs ys vis'

/-- One level of `aKeys.every(key => isEqual(a[key], b[key], visited))`. -/
def eqFieldsH (f : JVal → JVal → List (Nat × Nat) → Option (Bool × List (Nat × Nat))) :
    List String → List (String × JVal) → List (String × JVal) →
    List (Nat × Nat) → Option (Bool × List (Nat × Nat))
  | [], _, _, vis => some (true, vis)
  | k :: ks, fa, fb, vis =>
    match f (fget fa k) (fget fb k) vis with
    | none => none
    | some (false, vis') => some (false, vis')
    | some (true, vis') => eqFieldsH f ks fa fb vis'

def isEqualF : Nat → Heap → JVal → JVal → List (Nat × Nat) →
    Option (Bool × List (Nat × Nat))
  | 0, _, _, _, _ => none
  | n + 1, h, a, b, vis =>
    if a.isNullish || b.isNullish then some (a == b, vis)
    else
      match a, b with
      | .prim (.num x), .prim (.num y) => some (JNum.isEqualNum x y, vis)
      | a, b =>
        if a.objIs b then some (true, vis)
        else if a.typeOf ≠ b.typeOf then some (false, vis)
        else
          match a, b with
          | .ref ra, .ref rb =>
            match alookup vis ra with
            | some prev => some (prev == rb, vis)
            | none =>
              match h.get? ra, h.get? rb with
              | some (.arr ea), some (.arr eb) =>
                if ea.length ≠ eb.length then some (false, (ra, rb) :: vis)
                else eqListH (isEqualF n h) ea eb ((ra, rb) :: vis)
              | some (.arr _), some (.obj _) => some (false, (ra, rb) :: vis)
              | some (.obj _), some (.arr _) => some (false, (ra, rb) :: vis)
              | some (.obj fa), some (.obj fb) =>
                if (fa.map Prod.fst).length ≠ (fb.map Prod.fst).length then
                  some (false, (ra, rb) :: vis)
                else if ¬ ((fa.map Prod.fst).all fun k =>
                    (fb.map Prod.fst).contains k) then
                  some (false, (ra, rb) :: vis)
                else eqFieldsH (isEqualF n h) (fa.map Prod.fst) fa fb
                  ((ra, rb) :: vis)
              | _, _ => none
          | _, _ => some (false, vis)

/-! ### Concrete heaps for the circular-structure test vectors

`heapCyclicVsAcyclic`: node 0 is `{a:1, self: <self-ref>}`; nodes 1–3 are the
structurally similar but acyclic `{a:1, self: {a:1, self: {a:1, self:
null}}}`.  `heapTwoCycles`: nodes 0 and 1 are two independently
self-referential `{a:1, self: <self-ref>}` structures. -/

def heapCyclicVsAcyclic : Heap :=
  [ .obj [("a", .prim (.num (.int 1))), ("self", .ref 0)],
    .obj [("a", .prim (.num (.int 1))), ("self", .ref 2)],
    .obj [("a", .prim (.num (.int 1))), ("self", .ref 3)],
    .obj [("a", .prim (.num (.int 1))), ("self", .prim .null)] ]

def heapTwoCycles : Heap :=
  [ .obj [("a", .prim (.num (.int 1))), ("self", .ref 0)],
    .obj [("a", .prim (.num (.int 1))), ("self", .ref 1)] ]

/-! ## Visited-free structural comparison

`structEqF` mirrors `isEqualF` exactly — same checks, in the same order,
including the `Object.is` shortcut — except that it carries no visited map.
On values whose left-hand side revisits no address (which is the case for
every backing-slot value the bridge ever stores: they are `toJS` snapshots or
fresh clones), `isEqual` and `structEqF` agree; that correspondence is proved
below as `isEqualF_eq_structEqF`. -/

/-- Element-wise structural comparison (no visited map). -/
def seqListH (f : JVal → JVal → Option Bool) :
    List JVal → List JVal → Option Bool
  | [], _ => some true
  | _ :: _, [] => some true
  | x :: xs, y :: ys =>
    match f x y with
    | none => none
    | some false => some false
    | some true => seqListH f xs ys

def seqFieldsH (f : JVal → JVal → Option Bool) :
    List String → List (String × JVal) → List (String × JVal) → Option Bool
  | [], _, _ => some true
  | k :: ks, fa, fb =>
    match f (fget fa k) (fget fb k) with
    | none => none
    | some false => some false
    | some true => seqFieldsH f ks fa fb

def structEqF : Nat → Heap → JVal → JVal → Option Bool
  | 0, _, _, _ => none
  | n + 1, h, a, b =>
    if a.isNullish || b.isNullish then some (a == b)
    else
      match a, b with
      | .prim (.num x), .prim (.num y) => some (JNum.isEqualNum x y)
      | a, b =>
        if a.objIs b then some true
        else if a.typeOf ≠ b.typeOf then some false
        else
          match a, b with
          | .ref ra, .ref rb =>
            match h.get? ra, h.get? rb with
            | some (.arr ea), some (.arr eb) =>
              if ea.length ≠ eb.length then some false
              else seqListH (structEqF n h) ea eb
            | some (.arr _), some (.obj _) => some false
            | some (.obj _), some (.arr _) => some false
            | some (.obj fa), some (.obj fb) =>
              if (fa.map Prod.fst).length ≠ (fb.map Prod.fst).length then
                some false
              else if ¬ ((fa.map Prod.fst).all fun k =>
                  (fb.map Prod.fst).contains k) then
                some false
              else seqFieldsH (structEqF n h) (fa.map Prod.fst) fa fb
            | _, _ => none
          | _, _ => some false

/-! ## Unfolding a heap value into a pure tree

`unfoldF` reads the (finite, within the given fuel) unfolding of a value as
a pure tree together with the list of heap addresses visited, in traversal
order and with multiplicity.  Numeric leaves are normalised (`-0` to `+0`),
object nodes must have duplicate-free key lists (JS objects always do), and
a value is *tree-shaped* when its address list is duplicate-free. -/

inductive Tree where
  | prim : JPrim → Tree
  | arr : List Tree → Tree
  | obj : List (String × Tree) → Tree

def JPrim.norm : JPrim → JPrim
  | .num x => .num x.norm
  | p => p

/-- Element-wise unfolding, concatenating the visited-address lists. -/
def unfListH (f : JVal → Option (Tree × List Nat)) :
    List JVal → Option (List Tree × List Nat)
  | [] => some ([], [])
  | x :: xs =>
    match f x with
    | none => none
    | some (t, l) =>
      match unfListH f xs with
      | none => none
      | some (ts, ls) => some (t :: ts, l ++ ls)

def unfFieldsH (f : JVal → Option (Tree × List Nat)) :
    List (String × JVal) → Option (List (String × Tree) × List Nat)
  | [] => some ([], [])
  | (k, v) :: fs =>
    match f v with
    | none => none
    | some (t, l) =>
      match unfFieldsH f fs with
      | none => none
      | some (tfs, ls) => some ((k, t) :: tfs, l ++ ls)

def unfoldF : Nat → Heap → JVal → Option (Tree × List Nat)
  | 0, _, _ => none
  | _ + 1, _, .prim p => some (.prim p.norm, [])
  | n + 1, h, .ref a =>
    match h.get? a with
    | some (.arr es) =>
      match unfListH (unfoldF n h) es with
      | none => none
      | some (ts, l) => some (.arr ts, a :: l)
    | some (.obj fs) =>
      if (fs.map Prod.fst).Nodup then
        match unfFieldsH (unfoldF n h) fs with
        | none => none
        | some (tfs, l) => some (.obj tfs, a :: l)
      else none
    | none => none

/-! ## Equality on trees

`treeEqB` is the `isEqual` comparison transported to pure trees: numeric
leaves were already normalised by `unfoldF`, arrays compare pointwise, and
objects compare by key set with right-hand fields looked up by key. -/

def lookupT : List (String × Tree) → String → Tree
  | [], _ => .prim .undef
  | (k, t) :: rest, key => if k = key then t else lookupT rest key

mutual

def treeEqB : Tree → Tree → Bool
  | .prim p, .prim q => p == q
  | .arr ts, .arr us => ts.length == us.length && treeEqListB ts us
  | .obj fs, .obj gs =>
    (fs.map Prod.fst).length == (gs.map Prod.fst).length &&
    ((fs.map Prod.fst).all fun k => (gs.map Prod.fst).contains k) &&
    treeEqObjB fs gs
  | _, _ => false

def treeEqListB : List Tree → List Tree → Bool
  | [], _ => true
  | _ :: _, [] => true
  | t :: ts, u :: us => treeEqB t u && treeEqListB ts us

def treeEqObjB : List (String × Tree) → List (String × Tree) → Bool
  | [], _ => true
  | (k, t) :: fs, gs => treeEqB t (lookupT gs k) && treeEqObjB fs gs

end

/-! ## Cloning

`cloneValF` models the external `clone` dependency on acyclic values: a deep
structural copy whose object/array nodes are all freshly allocated (appended
to the heap), leaving every existing node untouched.  The copy of a node is
allocated after the copies of its children, so a clone's addresses all lie in
`[h.length, h'.length)`. -/

/-- Element-wise cloning, threading the growing heap. -/
def clListH (f : Heap → JVal → Option (JVal × Heap)) :
    Heap → List JVal → Option (List JVal × Heap)
  | h, [] => some ([], h)
  | h, x :: xs =>
    match f h x with
    | none => none
    | some (c, h') =>
      match clListH f h' xs with
      | none => none
      | some (cs, h'') => some (c :: cs, h'')

def clFieldsH (f : Heap → JVal → Option (JVal × Heap)) :
    Heap → List (String × JVal) → Option (List (String × JVal) × Heap)
  | h, [] => some ([], h)
  | h, (k, v) :: fs =>
    match f h v with
    | none => none
    | some (c, h') =>
      match clFieldsH f h' fs with
      | none => none
      | some (cfs, h'') => some ((k, c) :: cfs, h'')

def cloneValF : Nat → Heap → JVal → Option (JVal × Heap)
  | 0, _, _ => none
  | _ + 1, h, .prim p => some (.prim p, h)
  | n + 1, h, .ref a =>
    match h.get? a with
    | some (.arr es) =>
      match clListH (cloneValF n) h es with
      | none => none
      | some (cs, h') => some (.ref h'.length, h' ++ [.arr cs])
    | some (.obj fs) =>
      match clFieldsH (cloneValF n) h fs with
      | none => none
      | some (cfs, h') => some (.ref h'.length, h' ++ [.obj cfs])
    | none => none

/-! ## The bridge state

One record per `useMobxBridge` closure: the Vue-side backing refs
(`propertyRefs` / `getterRefs` / `setterRefs`), the source (MobX) object's
member values, the two echo-guard sets, and the lazily filled
read-only-detected cache.  All object values live in the shared `heap`.
JS `Set`s are duplicate-free string lists. -/

/-- Assoc-list read with JS member-access semantics (`undefined` if absent). -/
def sget : List (String × JVal) → String → JVal
  | [], _ => .prim .undef
  | (k, v) :: rest, key => if k = key then v else sget rest key

/-- Assoc-list write (replace first binding, or append). -/
def sset : List (String × JVal) → String → JVal → List (String × JVal)
  | [], key, v => [(key, v)]
  | (k, w) :: rest, key, v =>
    if k = key then (k, v) :: rest else (k, w) :: sset rest key v

/-- `Set.prototype.add`. -/
def guardInsert (l : List String) (p : String) : List String :=
  if p ∈ l then l else p :: l

/-- `Set.prototype.delete`. -/
def guardErase (l : List String) (p : String) : List String :=
  l.filter (· ≠ p)

structure BridgeState where
  heap : Heap
  propertyRefs : List (String × JVal)
  getterRefs : List (String × JVal)
  setterRefs : List (String × JVal)
  mobx : List (String × JVal)
  updatingFromVue : List String
  updatingFromMobx : List String
  readOnlyDetected : List String
deriving Repr, DecidableEq

/-- Errors thrown by a MobX member assignment.  `notPossibleToAssign` stands
for any error whose message contains MobX's `'not possible to assign'`
signal (the test `error.message.includes('not possible to assign')`); every
other thrown error is `other` with its message. -/
inductive JsError where
  | notPossibleToAssign : JsError
  | other : String → JsError
deriving Repr, DecidableEq

def JsError.msg : JsError → String
  | .notPossibleToAssign =>
    "[MobX] It is not possible to assign a new value to a computed value."
  | .other m => m

/-- The outcome of one descriptor-setter call: the new bridge state, the
`console.warn` messages it emitted, the error it threw to the caller (if
any), and whether the underlying `mobxObject[prop] = …` assignment was
attempted at all. -/
structure OpResult where
  state : BridgeState
  warnings : List String
  thrown : Option String
  attemptedSourceWrite : Bool
deriving Repr, DecidableEq

def cannotAssignMsg (prop : String) : String :=
  "Cannot assign to computed property '" ++ prop ++ "'"

def failedToSetMsg (prop msg : String) : String :=
  "Failed to set property '" ++ prop ++ "': " ++ msg

/-! ## Descriptor setters (mobxVueBridge.js)

Each setter takes the outcome `beh` of the underlying MobX assignment as a
parameter (`none` = the assignment succeeds, `some e` = it throws `e`); for
plain observable data slots a successful assignment stores the value in the
source object's member. -/

/-- The data-slot setter (two-way binding, mobxVueBridge.js lines 90–110):
clone the incoming value, update the Vue ref if the clone differs from it,
then — independently — if the clone differs from the MobX member, assign the
clone to MobX inside the `updatingFromVue` add/`finally`-delete guard.
A thrown MobX assignment error is not caught here, so it propagates after
the `finally` clears the guard. -/
def dataSlotSet (allowDirectMutation : Bool) (fuel : Nat) (prop : String)
    (v : JVal) (beh : Option JsError) (s : BridgeState) : Option OpResult :=
  if !allowDirectMutation then
    some ⟨s, ["Direct mutation of '" ++ prop ++ "' is disabled"], none, false⟩
  else
    match cloneValF fuel s.heap v with
    | none => none
    | some (cloned, h₁) =>
      match isEqualF fuel h₁ (sget s.propertyRefs prop) cloned [] with
      | none => none
      | some (eqRef, _) =>
        let refs' := if eqRef then s.propertyRefs
                     else sset s.propertyRefs prop cloned
        match isEqualF fuel h₁ (sget s.mobx prop) cloned [] with
        | none => none
        | some (eqMobx, _) =>
          let s₁ := { s with heap := h₁, propertyRefs := refs' }
          if eqMobx then some ⟨s₁, [], none, false⟩
          else
            let g := guardInsert s₁.updatingFromVue prop
            match beh with
            | none =>
              some ⟨{ s₁ with
                      mobx := sset s₁.mobx prop cloned,
                      updatingFromVue := guardErase g prop }, [], none, true⟩
            | some e =>
              some ⟨{ s₁ with updatingFromVue := guardErase g prop },
                    [], some e.msg, true⟩

/-- The getter/setter-pair setter (lazy read-only detection, mobxVueBridge.js
lines 139–168): fail fast if already known read-only; otherwise attempt the
MobX assignment under the echo guard; on a `'not possible to assign'` error,
cache the name and rethrow as a computed-property assignment error; on any
other error, warn and swallow. -/
def lazyPairSet (allowDirectMutation : Bool) (prop : String) (v : JVal)
    (beh : Option JsError) (s : BridgeState) : OpResult :=
  if !allowDirectMutation then
    ⟨s, ["Direct mutation of '" ++ prop ++ "' is disabled"], none, false⟩
  else if prop ∈ s.readOnlyDetected then
    ⟨s, [], some (cannotAssignMsg prop), false⟩
  else
    let g := guardInsert s.updatingFromVue prop
    match beh with
    | none =>
      ⟨{ s with updatingFromVue := guardErase g prop }, [], none, true⟩
    | some .notPossibleToAssign =>
      ⟨{ s with
         readOnlyDetected := prop :: s.readOnlyDetected,
         updatingFromVue := guardErase g prop },
       [], some (cannotAssignMsg prop), true⟩
    | some (.other m) =>
      ⟨{ s with updatingFromVue := guardErase g prop },
       [failedToSetMsg prop m], none, true⟩

/-- The getter-only setter (read-only computed, mobxVueBridge.js lines
184–192): unconditionally throws, independent of `allowDirectMutation`. -/
def getterOnlySet (prop : String) (s : BridgeState) : OpResult :=
  ⟨s, [], some (cannotAssignMsg prop), false⟩

/-- The setter-only setter (write-only trigger, mobxVueBridge.js lines
195–219): record the value in the setter ref, then attempt the MobX
assignment under the echo guard, warning on (and swallowing) any error. -/
def writeOnlySet (allowDirectMutation : Bool) (prop : String) (v : JVal)
    (beh : Option JsError) (s : BridgeState) : OpResult :=
  if !allowDirectMutation then
    ⟨s, ["Direct mutation of setter '" ++ prop ++ "' is disabled"], none, false⟩
  else
    let s₁ := { s with setterRefs := sset s.setterRefs prop v }
    let g := guardInsert s₁.updatingFromVue prop
    match beh with
    | none =>
      ⟨{ s₁ with updatingFromVue := guardErase g prop }, [], none, true⟩
    | some e =>
      ⟨{ s₁ with updatingFromVue := guardErase g prop },
       [failedToSetMsg prop e.msg], none, true⟩

/-! ## The deep mutation proxy (deepProxy.js) -/

/-- A property key on a proxied nested node. -/
inductive JKey where
  | str : String → JKey
  | idx : Nat → JKey
deriving Repr, DecidableEq

def JKey.toString : JKey → String
  | .str s => s
  | .idx n => Nat.repr n

def fsetField : List (String × JVal) → String → JVal → List (String × JVal)
  | [], key, v => [(key, v)]
  | (k, w) :: rest, key, v =>
    if k = key then (k, v) :: rest else (k, w) :: fsetField rest key v

/-- `target[key] = val` on a heap node. -/
def JObj.setK : JObj → JKey → JVal → JObj
  | .arr es, .idx i, v => .arr (es.set i v)
  | .obj fs, .str k, v => .obj (fsetField fs k v)
  | o, _, _ => o

def heapSet (h : Heap) (a : Nat) (node : JObj) : Heap := h.set a node

/-- The result of the proxy `set` trap: the new state, warnings, the value
returned to the JS runtime (`false` would raise a `TypeError` at the
caller's assignment in strict mode), and whether a flush microtask was
newly scheduled. -/
structure ProxySetResult where
  state : BridgeState
  warnings : List String
  trapReturn : Bool
  scheduledFlush : Bool
deriving Repr, DecidableEq

/-- The deep proxy's `set` trap (deepProxy.js lines 69–107): when direct
mutation is disabled, warn and report success without touching anything and
without scheduling a flush; otherwise mutate the target node in place and,
if no flush is pending, schedule one. -/
def deepProxySet (allowDirectMutation : Bool) (prop : String) (addr : Nat)
    (key : JKey) (v : JVal) (pending : Bool) (s : BridgeState) :
    ProxySetResult :=
  if !allowDirectMutation then
    ⟨s, ["Direct mutation of '" ++ prop ++ "." ++ key.toString ++
         "' is disabled"], true, false⟩
  else
    match s.heap.get? addr with
    | none => ⟨s, [], true, false⟩
    | some node =>
      ⟨{ s with heap := heapSet s.heap addr (node.setK key v) }, [],
       true, !pending⟩

/-- The batched flush microtask (deepProxy.js lines 83–103): clone the
current root value, store the clone in the Vue ref, then assign it to the
MobX member inside the `updatingFromVue` add/`finally`-delete guard. -/
def flushStep (fuel : Nat) (prop : String) (beh : Option JsError)
    (s : BridgeState) : Option OpResult :=
  match cloneValF fuel s.heap (sget s.propertyRefs prop) with
  | none => none
  | some (cloned, h₁) =>
    let s₁ := { s with
                heap := h₁,
                propertyRefs := sset s.propertyRefs prop cloned }
    let g := guardInsert s₁.updatingFromVue prop
    match beh with
    | none =>
      some ⟨{ s₁ with
              mobx := sset s₁.mobx prop cloned,
              updatingFromVue := guardErase g prop }, [], none, true⟩
    | some e =>
      some ⟨{ s₁ with updatingFromVue := guardErase g prop },
            [], some e.msg, true⟩

/-! ## Observation wiring (setupPropertyObservation / helpers)

The MobX→Vue direction.  Deep-observe subscriptions are identified by
freshly numbered handles; `deepObserveSubscriptions` maps a data-slot name
to its currently active handle, and each handle records which value it was
installed against.  `mobxToVueUpdater` is the shared update handler
(`createMobxToVueUpdater`): skip when the name is echo-guarded, otherwise
take a `toJS` snapshot (modelled as a deep clone) of the MobX member and
store it in the Vue ref when it differs. -/

structure ObsState where
  bs : BridgeState
  deepSubs : List (String × Nat)
  deepSubTarget : List (Nat × JVal)
  disposed : List Nat
  nextSubId : Nat
deriving Repr, DecidableEq

/-- Lookup of a string-keyed assoc list (deep-subscription map). -/
def slookup : List (String × Nat) → String → Option Nat
  | [], _ => none
  | (k, v) :: rest, key => if k = key then some v else slookup rest key

def skeyErase (l : List (String × Nat)) (key : String) : List (String × Nat) :=
  l.filter (fun kv => kv.1 ≠ key)

def nlookup : List (Nat × JVal) → Nat → Option JVal
  | [], _ => none
  | (k, v) :: rest, key => if k = key then some v else nlookup rest key

/-- `createMobxToVueUpdater` (helpers): the handler both `observe` and
`deepObserve` callbacks run.  The `updatingFromMobx` guard is added and then
removed in the `finally`, so it is transparent in the final state. -/
def mobxToVueUpdater (fuel : Nat) (prop : String) (os : ObsState) :
    Option ObsState :=
  if prop ∈ os.bs.updatingFromVue then some os
  else
    match cloneValF fuel os.bs.heap (sget os.bs.mobx prop) with
    | none => none
    | some (next, h₁) =>
      match isEqualF fuel h₁ (sget os.bs.propertyRefs prop) next [] with
      | none => none
      | some (eq, _) =>
        let refs' := if eq then os.bs.propertyRefs
                     else sset os.bs.propertyRefs prop next
        some { os with
               bs := { os.bs with
                       heap := h₁,
                       propertyRefs := refs',
                       updatingFromMobx :=
                         guardErase
                           (guardInsert os.bs.updatingFromMobx prop) prop } }

/-- `setupDeepObserve` (setupPropertyObservation): dispose the existing deep
subscription for the slot, then — if the new value is an object/array, and
the member's current value still is one (`deepObserveProperty` re-reads
`target[propertyName]`) — install a fresh subscription against it. -/
def setupDeepObserve (prop : String) (value : JVal) (os : ObsState) :
    ObsState :=
  let os₁ :=
    match slookup os.deepSubs prop with
    | some oldId => { os with
                      disposed := oldId :: os.disposed,
                      deepSubs := skeyErase os.deepSubs prop }
    | none => os
  match value with
  | .ref _ =>
    match sget os₁.bs.mobx prop with
    | .ref _ =>
      { os₁ with
        deepSubs := (prop, os₁.nextSubId) :: os₁.deepSubs,
        deepSubTarget := (os₁.nextSubId, sget os₁.bs.mobx prop) ::
          os₁.deepSubTarget,
        nextSubId := os₁.nextSubId + 1 }
    | _ => os₁
  | _ => os₁

/-- The `observe(target, prop, …)` callback installed by `observeProperty`:
run the updater, then — when the change is an update — hand the new value to
`onValueChanged`, which is `setupDeepObserve`. -/
def directChangeFire (fuel : Nat) (prop : String) (isUpdate : Bool)
    (newValue : JVal) (os : ObsState) : Option ObsState :=
  match mobxToVueUpdater fuel prop os with
  | none => none
  | some os₁ =>
    if isUpdate then some (setupDeepObserve prop newValue os₁) else some os₁

/-- The `deepObserve(value, …)` callback installed by `deepObserveProperty`:
it runs the shared updater. -/
def deepChangeFire (fuel : Nat) (prop : String) (os : ObsState) :
    Option ObsState :=
  mobxToVueUpdater fuel prop os

/-! ## Member classification (memberDetection.js)

An abstract description of what the host object and MobX's introspection
report for each member name; `none` for an introspection result means that
call throws.  `categorizeMembers` mirrors `categorizeMobxMembers` and its
four `detect*` passes, and additionally returns the trace of inspection
actions performed on the source object, so that "classification performs no
setter invocation" is a statement about the trace rather than true by
construction — `testSetterM` below shows how a setter call would appear. -/

structure MemberSpec where
  hasGetter : Bool
  hasSetter : Bool
  valueIsFunction : Bool
  readThrows : Bool
  isComputedR : Option Bool
  isObservableR : Option Bool
deriving Repr, DecidableEq

structure ObjSpec where
  ownNames : List String
  protoNames : List String
  member : String → MemberSpec

inductive ClsEvent where
  | getOwnNames : ClsEvent
  | getProtoNames : ClsEvent
  | readDescriptor : String → ClsEvent
  | readValue : String → ClsEvent
  | introComputed : String → ClsEvent
  | introObservable : String → ClsEvent
  | callSetter : String → ClsEvent
deriving Repr, DecidableEq

/-- `detectGetters`' per-name predicate: MobX introspection first; if
`isComputedProp` throws, fall back to "has a getter descriptor and is not an
observable prop" (short-circuiting, so the descriptor test runs before the
`isObservableProp` call); any other failure yields `false`. -/
def detectGetterM (m : MemberSpec) (p : String) : Bool × List ClsEvent :=
  match m.isComputedR with
  | some b => (b, [.introComputed p])
  | none =>
    if m.hasGetter then
      match m.isObservableR with
      | some ob => (!ob, [.introComputed p, .readDescriptor p,
                         .introObservable p])
      | none => (false, [.introComputed p, .readDescriptor p,
                         .introObservable p])
    else (false, [.introComputed p, .readDescriptor p])

/-- `detectSetters`' per-name predicate: require a setter descriptor,
exclude functions (this reads the member), then — for computed members —
report writability from both-accessors-present alone; if `isComputedProp`
throws, both-accessors-present also decides; otherwise include exactly the
non-observable names. -/
def detectSetterM (m : MemberSpec) (p : String) : Bool × List ClsEvent :=
  if !m.hasSetter then (false, [.readDescriptor p])
  else if m.readThrows then (false, [.readDescriptor p, .readValue p])
  else if m.valueIsFunction then (false, [.readDescriptor p, .readValue p])
  else
    match m.isComputedR with
    | some true => (m.hasGetter, [.readDescriptor p, .readValue p,
                                  .introComputed p])
    | some false =>
      match m.isObservableR with
      | some ob => (!ob, [.readDescriptor p, .readValue p, .introComputed p,
                          .introObservable p])
      | none => (false, [.readDescriptor p, .readValue p, .introComputed p,
                         .introObservable p])
    | none =>
      if m.hasGetter then (true, [.readDescriptor p, .readValue p,
                                  .introComputed p])
      else
        match m.isObservableR with
        | some ob => (!ob, [.readDescriptor p, .readValue p, .introComputed p,
                            .introObservable p])
        | none => (false, [.readDescriptor p, .readValue p, .introComputed p,
                           .introObservable p])

/-- `testSetter` (memberDetection.js): present in the module but not called
from any `detect*` pass; it is the only inspection that would emit a
`callSetter` event. -/
def testSetterM (m : MemberSpec) (p : String) : Bool × List ClsEvent :=
  if m.readThrows then (false, [.readValue p, .callSetter p])
  else (true, [.readValue p, .callSetter p])

/-- `detectProperties`' per-name predicate: observable, not a function, not
computed. -/
def detectPropertyM (m : MemberSpec) (p : String) : Bool × List ClsEvent :=
  match m.isObservableR with
  | none => (false, [.introObservable p])
  | some false => (false, [.introObservable p])
  | some true =>
    if m.readThrows then (false, [.introObservable p, .readValue p])
    else if m.valueIsFunction then (false, [.introObservable p, .readValue p])
    else
      match m.isComputedR with
      | none => (false, [.introObservable p, .readValue p, .introComputed p])
      | some c => (!c, [.introObservable p, .readValue p, .introComputed p])

/-- `detectMethods`' per-name predicate. -/
def detectMethodM (m : MemberSpec) (p : String) : Bool × List ClsEvent :=
  if m.readThrows then (false, [.readValue p])
  else (m.valueIsFunction, [.readValue p])

def runDetect (os : ObjSpec) (props : List String)
    (d : MemberSpec → String → Bool × List ClsEvent) :
    List String × List ClsEvent :=
  match props with
  | [] => ([], [])
  | p :: rest =>
    let (b, ev) := d (os.member p) p
    let (sel, evs) := runDetect os rest d
    (if b then p :: sel else sel, ev ++ evs)

structure Members where
  getters : List String
  setters : List String
  properties : List String
  methods : List String
deriving Repr, DecidableEq

/-- `p.startsWith('_')`, written out on the character list so that it
evaluates by kernel reduction. -/
def startsWithUnderscore (p : String) : Bool :=
  match p.data with
  | [] => false
  | c :: _ => c = '_'

/-- Candidate names: own plus prototype names, minus `constructor`, minus
underscore-prefixed names. -/
def candidateNames (os : ObjSpec) : List String :=
  (os.ownNames ++ os.protoNames).filter
    (fun p => p ≠ "constructor" && !(startsWithUnderscore p))

/-- `categorizeMobxMembers`. -/
def categorizeMembers (os : ObjSpec) : Members × List ClsEvent :=
  let props := candidateNames os
  let (g, evG) := runDetect os props detectGetterM
  let (s, evS) := runDetect os props detectSetterM
  let (pr, evP) := runDetect os props detectPropertyM
  let (me, evM) := runDetect os props detectMethodM
  (⟨g, s, pr, me⟩,
   .getOwnNames :: .getProtoNames :: (evG ++ evS ++ evP ++ evM))

/-- The getter/setter split performed by `useMobxBridge` (mobxVueBridge.js
lines 120–122). -/
def getterSetterPairs (m : Members) : List String :=
  m.getters.filter (fun p => m.setters.contains p)

def gettersOnly (m : Members) : List String :=
  m.getters.filter (fun p => !(m.setters.contains p))

def settersOnly (m : Members) : List String :=
  m.setters.filter (fun p => !(m.getters.contains p))

/-! ## Auxiliary notions used by the theorems -/

/-- Heap extension: every existing node is untouched, new nodes are appended
(clones only ever allocate at the end of the heap). -/
def HeapExt (h H : Heap) : Prop := ∃ ext, H = h ++ ext

/-- The keys (left-hand references) recorded in a visited map. -/
def vkeys (vis : List (Nat × Nat)) : List Nat := vis.map Prod.fst

/-- A host object for the classifier theorems: member `m` is a computed
(getter-only) member whose current value is a function, member `n` is inert
(no accessors, not observable, not computed, value not a function). -/
def c7Spec : ObjSpec :=
  ⟨["m", "n"], [], fun p =>
    if p = "m" then ⟨true, false, true, false, some true, some false⟩
    else ⟨false, false, false, false, some false, some false⟩⟩

/-- How many of the five user-facing categories (data slot, read-only
derived, writable derived, write-only trigger, callable) contain a name. -/
def categoryCount (os : ObjSpec) (p : String) : Nat :=
  (if p ∈ (categorizeMembers os).1.properties then 1 else 0) +
  (if p ∈ gettersOnly (categorizeMembers os).1 then 1 else 0) +
  (if p ∈ getterSetterPairs (categorizeMembers os).1 then 1 else 0) +
  (if p ∈ settersOnly (categorizeMembers os).1 then 1 else 0) +
  (if p ∈ (categorizeMembers os).1.methods then 1 else 0)

/-- Concrete bridge and observation states used by the witness theorems. -/
def c1State : BridgeState :=
  ⟨[], [("p", .prim (.num (.int 0)))], [], [], [("p", .prim (.num (.int 0)))],
   [], [], []⟩

def c1Result : OpResult :=
  ⟨⟨[], [("p", .prim (.num (.int 5)))], [], [],
    [("p", .prim (.num (.int 5)))], [], [], []⟩, [], none, true⟩

def c3StateFresh : BridgeState := ⟨[], [], [], [], [], [], [], []⟩

def c3StateDetected : BridgeState := ⟨[], [], [], [], [], [], [], ["q"]⟩

def c5In : ObsState :=
  ⟨⟨[.obj [], .obj []], [("p", .prim .undef)], [], [], [("p", .ref 1)],
    [], [], []⟩,
   [("p", 0)], [(0, .ref 0)], [], 1⟩

def c5Out : ObsState :=
  ⟨⟨[.obj [], .obj [], .obj []], [("p", .ref 2)], [], [], [("p", .ref 1)],
    [], [], []⟩,
   [("p", 1)], [(1, .ref 1), (0, .ref 0)], [0], 2⟩

def c5BOut : ObsState :=
  ⟨⟨[.obj [], .obj [], .obj [], .obj []], [("p", .ref 2)], [], [],
    [("p", .ref 1)], [], [], []⟩,
   [("p", 1)], [(1, .ref 1), (0, .ref 0)], [0], 2⟩

/-! # Theorems

Helper lemmas first, then one theorem per specification claim (each claim
theorem carries a doc comment naming the claim). -/

theorem JNum.isEqualNum_eq_norm (a b : JNum) :
    JNum.isEqualNum a b = (JNum.norm a == JNum.norm b) := by
  cases a <;> cases b <;>
    first
      | rfl
      | (simp only [JNum.isEqualNum, JNum.isNaN, JNum.strictEq, JNum.norm,
          Bool.false_and, Bool.and_false, Bool.false_or];
         rw [Bool.eq_iff_iff]; simp only [beq_iff_eq, JNum.int.injEq];
         try omega)

theorem isEqualF_prim_left (n : Nat) (h : Heap) (p : JPrim) (b : JVal)
    (vis : List (Nat × Nat)) :
    isEqualF (n + 1) h (.prim p) b vis
      = (structEqF (n + 1) h (.prim p) b).map (fun r => (r, vis)) := by
  cases b with
  | prim q =>
    cases p <;> cases q <;>
      simp only [isEqualF, structEqF, JVal.isNullish, JVal.objIs, JVal.typeOf,
        Bool.true_or, Bool.or_true, Bool.false_or, Bool.or_false, if_true,
        if_false, Option.map_some, Option.map] <;>
      split <;> (try split) <;> simp_all
  | ref a =>
    cases p <;>
      simp only [isEqualF, structEqF, JVal.isNullish, JVal.objIs, JVal.typeOf,
        Bool.true_or, Bool.or_true, Bool.false_or, Bool.or_false,
        Option.map] <;>
      split <;> (try split) <;> simp_all
theorem HeapExt.rfl (h : Heap) : HeapExt h h := ⟨[], by simp⟩

theorem HeapExt.trans {h₁ h₂ h₃ : Heap} (e₁ : HeapExt h₁ h₂)
    (e₂ : HeapExt h₂ h₃) : HeapExt h₁ h₃ := by
  obtain ⟨x, rfl⟩ := e₁; obtain ⟨y, rfl⟩ := e₂
  exact ⟨x ++ y, by simp⟩

theorem HeapExt.length_le {h H : Heap} (e : HeapExt h H) :
    h.length ≤ H.length := by
  obtain ⟨x, rfl⟩ := e; simp

theorem get?_lt {h : Heap} {a : Nat} {o : JObj} (hg : h.get? a = some o) :
    a < h.length := by
  by_contra hc
  rw [List.get?_eq_none.mpr (Nat.le_of_not_lt hc)] at hg
  exact absurd hg (by simp)

theorem HeapExt.get?_eq {h H : Heap} (he : HeapExt h H) {a : Nat} {o : JObj}
    (hg : h.get? a = some o) : H.get? a = some o := by
  obtain ⟨ext, rfl⟩ := he
  rw [List.get?_append (get?_lt hg)]; exact hg

theorem unfListH_congr {f g : JVal → Option (Tree × List Nat)}
    {xs : List JVal} (hfg : ∀ x ∈ xs, ∀ r, f x = some r → g x = some r)
    {r} (hu : unfListH f xs = some r) : unfListH g xs = some r := by
  induction xs generalizing r with
  | nil => simpa [unfListH] using hu
  | cons x xs ih =>
    simp only [unfListH] at hu ⊢
    cases hx : f x with
    | none => rw [hx] at hu; exact absurd hu (by simp)
    | some tl =>
      rw [hx] at hu
      rw [hfg x (by simp) tl hx]
      cases hxs : unfListH f xs with
      | none => rw [hxs] at hu; exact absurd hu (by simp)
      | some tsls =>
        rw [hxs] at hu
        rw [ih (fun x hx => hfg x (by simp [hx])) hxs]
        exact hu

theorem unfFieldsH_congr {f g : JVal → Option (Tree × List Nat)}
    {fs : List (String × JVal)}
    (hfg : ∀ kv ∈ fs, ∀ r, f kv.2 = some r → g kv.2 = some r)
    {r} (hu : unfFieldsH f fs = some r) : unfFieldsH g fs = some r := by
  induction fs generalizing r with
  | nil => simpa [unfFieldsH] using hu
  | cons kv fs ih =>
    obtain ⟨k, v⟩ := kv
    simp only [unfFieldsH] at hu ⊢
    cases hx : f v with
    | none => rw [hx] at hu; exact absurd hu (by simp)
    | some tl =>
      rw [hx] at hu
      rw [hfg (k, v) (by simp) tl hx]
      cases hxs : unfFieldsH f fs with
      | none => rw [hxs] at hu; exact absurd hu (by simp)
      | some tsls =>
        rw [hxs] at hu
        rw [ih (fun kv hkv => hfg kv (by simp [hkv])) hxs]
        exact hu

theorem unfoldF_mono : ∀ (n : Nat) {h H : Heap} {v : JVal}
    {r : Tree × List Nat}, HeapExt h H →
    unfoldF n h v = some r → unfoldF n H v = some r := by
  intro n
  induction n with
  | zero => intro h H v r _ hu; exact absurd hu (by simp [unfoldF])
  | succ n ih =>
    intro h H v r he hu
    cases v with
    | prim p => simpa [unfoldF] using hu
    | ref a =>
      cases hg : h.get? a with
      | none => simp only [unfoldF, hg] at hu; exact absurd hu (by simp)
      | some node =>
        cases node with
        | arr es =>
          simp only [unfoldF, hg] at hu
          simp only [unfoldF, he.get?_eq hg]
          cases hl : unfListH (unfoldF n h) es with
          | none => rw [hl] at hu; exact absurd hu (by simp)
          | some tsl =>
            simp only [hl] at hu
            simp only [unfListH_congr (fun x _ r hx => ih he hx) hl]
            exact hu
        | obj fs =>
          simp only [unfoldF, hg] at hu
          simp only [unfoldF, he.get?_eq hg]
          by_cases hnd : (fs.map Prod.fst).Nodup
          · simp only [if_pos hnd] at hu ⊢
            cases hl : unfFieldsH (unfoldF n h) fs with
            | none => rw [hl] at hu; exact absurd hu (by simp)
            | some tsl =>
              simp only [hl] at hu
              simp only [unfFieldsH_congr (fun kv _ r hx => ih he hx) hl]
              exact hu
          · simp only [if_neg hnd] at hu; exact absurd hu (by simp)
theorem clListH_ext {f : Heap → JVal → Option (JVal × Heap)}
    (hf : ∀ {h x c h'}, f h x = some (c, h') → HeapExt h h') :
    ∀ {h : Heap} {xs : List JVal} {cs h'},
      clListH f h xs = some (cs, h') → HeapExt h h' := by
  intro h xs
  induction xs generalizing h with
  | nil => intro cs h' hc; simp [clListH] at hc; exact hc.2 ▸ HeapExt.rfl h
  | cons x xs ih =>
    intro cs h' hc
    simp only [clListH] at hc
    cases hx : f h x with
    | none => rw [hx] at hc; exact absurd hc (by simp)
    | some ch =>
      obtain ⟨c₁, h₁⟩ := ch
      simp only [hx] at hc
      cases hxs : clListH f h₁ xs with
      | none => simp only [hxs] at hc; exact absurd hc (by simp)
      | some csh =>
        obtain ⟨cs₂, h₂⟩ := csh
        simp only [hxs] at hc
        simp only [Option.some.injEq, Prod.mk.injEq] at hc
        exact hc.2 ▸ (hf hx).trans (ih hxs)

theorem clFieldsH_ext {f : Heap → JVal → Option (JVal × Heap)}
    (hf : ∀ {h x c h'}, f h x = some (c, h') → HeapExt h h') :
    ∀ {h : Heap} {fs : List (String × JVal)} {cfs h'},
      clFieldsH f h fs = some (cfs, h') → HeapExt h h' := by
  intro h fs
  induction fs generalizing h with
  | nil => intro cfs h' hc; simp [clFieldsH] at hc; exact hc.2 ▸ HeapExt.rfl h
  | cons kv fs ih =>
    obtain ⟨k, v⟩ := kv
    intro cfs h' hc
    simp only [clFieldsH] at hc
    cases hx : f h v with
    | none => rw [hx] at hc; exact absurd hc (by simp)
    | some ch =>
      obtain ⟨c₁, h₁⟩ := ch
      simp only [hx] at hc
      cases hxs : clFieldsH f h₁ fs with
      | none => simp only [hxs] at hc; exact absurd hc (by simp)
      | some csh =>
        obtain ⟨cs₂, h₂⟩ := csh
        simp only [hxs] at hc
        simp only [Option.some.injEq, Prod.mk.injEq] at hc
        exact hc.2 ▸ (hf hx).trans (ih hxs)

theorem cloneValF_ext : ∀ (n : Nat) {h : Heap} {v : JVal} {c h₁},
    cloneValF n h v = some (c, h₁) → HeapExt h h₁ := by
  intro n
  induction n with
  | zero => intro h v c h₁ hc; exact absurd hc (by simp [cloneValF])
  | succ n ih =>
    intro h v c h₁ hc
    cases v with
    | prim p =>
      simp only [cloneValF, Option.some.injEq, Prod.mk.injEq] at hc
      exact hc.2 ▸ HeapExt.rfl h
    | ref a =>
      cases hg : h.get? a with
      | none => simp only [cloneValF, hg] at hc; exact absurd hc (by simp)
      | some node =>
        cases node with
        | arr es =>
          simp only [cloneValF, hg] at hc
          cases hl : clListH (cloneValF n) h es with
          | none => rw [hl] at hc; exact absurd hc (by simp)
          | some csh =>
            obtain ⟨cs, h'⟩ := csh
            simp only [hl, Option.some.injEq, Prod.mk.injEq] at hc
            refine hc.2 ▸ (clListH_ext (fun hx => ih hx) hl).trans ⟨_, rfl⟩
        | obj fs =>
          simp only [cloneValF, hg] at hc
          cases hl : clFieldsH (cloneValF n) h fs with
          | none => rw [hl] at hc; exact absurd hc (by simp)
          | some csh =>
            obtain ⟨cfs, h'⟩ := csh
            simp only [hl, Option.some.injEq, Prod.mk.injEq] at hc
            refine hc.2 ▸ (clFieldsH_ext (fun hx => ih hx) hl).trans ⟨_, rfl⟩
theorem cloneValF_unfold : ∀ (n : Nat) {h : Heap} {v c : JVal} {h₁ : Heap}
    {t : Tree} {l : List Nat},
    cloneValF n h v = some (c, h₁) → unfoldF n h v = some (t, l) →
    ∀ {H : Heap}, HeapExt h₁ H →
    ∃ lc, unfoldF n H c = some (t, lc) ∧ lc.Nodup ∧
      ∀ x ∈ lc, h.length ≤ x ∧ x < h₁.length := by
  intro n
  induction n with
  | zero => intro h v c h₁ t l hc _ _ _; exact absurd hc (by simp [cloneValF])
  | succ n ih =>
    have listStep : ∀ {h' : Heap} {es : List JVal} {cs : List JVal}
        {h₂ : Heap} {ts : List Tree} {l₀ : List Nat},
        clListH (cloneValF n) h' es = some (cs, h₂) →
        unfListH (unfoldF n h') es = some (ts, l₀) →
        ∀ {H : Heap}, HeapExt h₂ H →
        ∃ lc, unfListH (unfoldF n H) cs = some (ts, lc) ∧ lc.Nodup ∧
          ∀ x ∈ lc, h'.length ≤ x ∧ x < h₂.length := by
      intro h' es
      induction es generalizing h' with
      | nil =>
        intro cs h₂ ts l₀ hc hu H he
        simp only [clListH, Option.some.injEq, Prod.mk.injEq] at hc
        simp only [unfListH, Option.some.injEq, Prod.mk.injEq] at hu
        exact ⟨[], by simp [unfListH, ← hc.1, ← hu.1], by simp, by simp⟩
      | cons x xs ihl =>
        intro cs h₂ ts l₀ hc hu H he
        simp only [clListH] at hc
        cases hx : cloneValF n h' x with
        | none => rw [hx] at hc; exact absurd hc (by simp)
        | some chA =>
          obtain ⟨c₁, hA⟩ := chA
          simp only [hx] at hc
          cases hxs : clListH (cloneValF n) hA xs with
          | none => simp only [hxs] at hc; exact absurd hc (by simp)
          | some csh =>
            obtain ⟨cs', h₂'⟩ := csh
            simp only [hxs, Option.some.injEq, Prod.mk.injEq] at hc
            obtain ⟨rfl, rfl⟩ := hc
            simp only [unfListH] at hu
            cases hux : unfoldF n h' x with
            | none => rw [hux] at hu; exact absurd hu (by simp)
            | some tl₁ =>
              obtain ⟨t₁, l₁⟩ := tl₁
              simp only [hux] at hu
              cases huxs : unfListH (unfoldF n h') xs with
              | none => simp only [huxs] at hu; exact absurd hu (by simp)
              | some tsls =>
                obtain ⟨ts', ls'⟩ := tsls
                simp only [huxs, Option.some.injEq, Prod.mk.injEq] at hu
                obtain ⟨rfl, rfl⟩ := hu
                -- element: clone ran in h', unfold known in h'
                have extA : HeapExt hA h₂' := clListH_ext (fun hq => cloneValF_ext n hq) hxs
                obtain ⟨lc₁, hu₁, hn₁, hr₁⟩ := ih hx hux (extA.trans he)
                -- tail: transport the unfold of xs from h' into hA
                have huxs' : unfListH (unfoldF n hA) xs = some (ts', ls') :=
                  unfListH_congr
                    (fun y _ r hy => unfoldF_mono n (cloneValF_ext n hx) hy) huxs
                obtain ⟨lc₂, hu₂, hn₂, hr₂⟩ := ihl hxs huxs' he
                refine ⟨lc₁ ++ lc₂, ?_, ?_, ?_⟩
                · simp only [unfListH, hu₁, hu₂]
                · refine hn₁.append hn₂ (fun x hx₁ hx₂ => ?_)
                  exact absurd (hr₂ x hx₂).1 (Nat.not_le.mpr (hr₁ x hx₁).2)
                · intro x hx₀
                  rcases List.mem_append.mp hx₀ with hx₁ | hx₂
                  · exact ⟨(hr₁ x hx₁).1,
                      lt_of_lt_of_le (hr₁ x hx₁).2 extA.length_le⟩
                  · exact ⟨le_trans (cloneValF_ext n hx).length_le (hr₂ x hx₂).1,
                      (hr₂ x hx₂).2⟩
    have fieldsStep : ∀ {h' : Heap} {fs : List (String × JVal)}
        {cfs : List (String × JVal)} {h₂ : Heap}
        {tfs : List (String × Tree)} {l₀ : List Nat},
        clFieldsH (cloneValF n) h' fs = some (cfs, h₂) →
        unfFieldsH (unfoldF n h') fs = some (tfs, l₀) →
        ∀ {H : Heap}, HeapExt h₂ H →
        cfs.map Prod.fst = fs.map Prod.fst ∧
        ∃ lc, unfFieldsH (unfoldF n H) cfs = some (tfs, lc) ∧ lc.Nodup ∧
          ∀ x ∈ lc, h'.length ≤ x ∧ x < h₂.length := by
      intro h' fs
      induction fs generalizing h' with
      | nil =>
        intro cfs h₂ tfs l₀ hc hu H he
        simp only [clFieldsH, Option.some.injEq, Prod.mk.injEq] at hc
        simp only [unfFieldsH, Option.some.injEq, Prod.mk.injEq] at hu
        refine ⟨by simp [← hc.1], [], by simp [unfFieldsH, ← hc.1, ← hu.1],
          by simp, by simp⟩
      | cons kv fs ihl =>
        obtain ⟨k, v⟩ := kv
        intro cfs h₂ tfs l₀ hc hu H he
        simp only [clFieldsH] at hc
        cases hx : cloneValF n h' v with
        | none => rw [hx] at hc; exact absurd hc (by simp)
        | some chA =>
          obtain ⟨c₁, hA⟩ := chA
          simp only [hx] at hc
          cases hxs : clFieldsH (cloneValF n) hA fs with
          | none => simp only [hxs] at hc; exact absurd hc (by simp)
          | some csh =>
            obtain ⟨cfs', h₂'⟩ := csh
            simp only [hxs, Option.some.injEq, Prod.mk.injEq] at hc
            obtain ⟨rfl, rfl⟩ := hc
            simp only [unfFieldsH] at hu
            cases hux : unfoldF n h' v with
            | none => rw [hux] at hu; exact absurd hu (by simp)
            | some tl₁ =>
              obtain ⟨t₁, l₁⟩ := tl₁
              simp only [hux] at hu
              cases huxs : unfFieldsH (unfoldF n h') fs with
              | none => simp only [huxs] at hu; exact absurd hu (by simp)
              | some tsls =>
                obtain ⟨tfs', ls'⟩ := tsls
                simp only [huxs, Option.some.injEq, Prod.mk.injEq] at hu
                obtain ⟨rfl, rfl⟩ := hu
                have extA : HeapExt hA h₂' :=
                  clFieldsH_ext (fun hq => cloneValF_ext n hq) hxs
                obtain ⟨lc₁, hu₁, hn₁, hr₁⟩ := ih hx hux (extA.trans he)
                have huxs' : unfFieldsH (unfoldF n hA) fs = some (tfs', ls') :=
                  unfFieldsH_congr
                    (fun y _ r hy => unfoldF_mono n (cloneValF_ext n hx) hy) huxs
                obtain ⟨hkeys, lc₂, hu₂, hn₂, hr₂⟩ := ihl hxs huxs' he
                refine ⟨by simp [hkeys], lc₁ ++ lc₂, ?_, ?_, ?_⟩
                · simp only [unfFieldsH, hu₁, hu₂]
                · refine hn₁.append hn₂ (fun x hx₁ hx₂ => ?_)
                  exact absurd (hr₂ x hx₂).1 (Nat.not_le.mpr (hr₁ x hx₁).2)
                · intro x hx₀
                  rcases List.mem_append.mp hx₀ with hx₁ | hx₂
                  · exact ⟨(hr₁ x hx₁).1,
                      lt_of_lt_of_le (hr₁ x hx₁).2 extA.length_le⟩
                  · exact ⟨le_trans (cloneValF_ext n hx).length_le (hr₂ x hx₂).1,
                      (hr₂ x hx₂).2⟩
    intro h v c h₁ t l hc hu H he
    cases v with
    | prim p =>
      simp only [cloneValF, Option.some.injEq, Prod.mk.injEq] at hc
      simp only [unfoldF, Option.some.injEq, Prod.mk.injEq] at hu
      obtain ⟨rfl, rfl⟩ := hc
      exact ⟨[], by simp [unfoldF, hu.1], by simp, by simp⟩
    | ref a =>
      cases hg : h.get? a with
      | none =>
        simp only [cloneValF, hg] at hc; exact absurd hc (by simp)
      | some node =>
        cases node with
        | arr es =>
          simp only [cloneValF, hg] at hc
          simp only [unfoldF, hg] at hu
          cases hcl : clListH (cloneValF n) h es with
          | none => rw [hcl] at hc; exact absurd hc (by simp)
          | some csh =>
            obtain ⟨cs, hB⟩ := csh
            simp only [hcl, Option.some.injEq, Prod.mk.injEq] at hc
            obtain ⟨rfl, rfl⟩ := hc
            cases hul : unfListH (unfoldF n h) es with
            | none => rw [hul] at hu; exact absurd hu (by simp)
            | some tsl =>
              obtain ⟨ts, l₀⟩ := tsl
              simp only [hul, Option.some.injEq, Prod.mk.injEq] at hu
              obtain ⟨rfl, rfl⟩ := hu
              have hnode : (hB ++ [JObj.arr cs]).get? hB.length
                  = some (.arr cs) := List.get?_concat_length hB (.arr cs)
              have heB : HeapExt hB H :=
                HeapExt.trans ⟨[JObj.arr cs], rfl⟩ he
              obtain ⟨lc, hLu, hLn, hLr⟩ := listStep hcl hul heB
              refine ⟨hB.length :: lc, ?_, ?_, ?_⟩
              · simp only [unfoldF, he.get?_eq hnode, hLu]
              · refine List.nodup_cons.mpr ⟨fun hm => ?_, hLn⟩
                exact absurd (hLr _ hm).2 (by omega)
              · intro x hx₀
                rcases List.mem_cons.mp hx₀ with rfl | hm
                · refine ⟨(clListH_ext (fun hq => cloneValF_ext n hq)
                    hcl).length_le, by simp⟩
                · have := hLr x hm
                  constructor
                  · exact this.1
                  · simp only [List.length_append, List.length_cons]
                    omega
        | obj fs =>
          simp only [cloneValF, hg] at hc
          simp only [unfoldF, hg] at hu
          by_cases hnd : (fs.map Prod.fst).Nodup
          · rw [if_pos hnd] at hu
            cases hcl : clFieldsH (cloneValF n) h fs with
            | none => rw [hcl] at hc; exact absurd hc (by simp)
            | some csh =>
              obtain ⟨cfs, hB⟩ := csh
              simp only [hcl, Option.some.injEq, Prod.mk.injEq] at hc
              obtain ⟨rfl, rfl⟩ := hc
              cases hul : unfFieldsH (unfoldF n h) fs with
              | none => rw [hul] at hu; exact absurd hu (by simp)
              | some tsl =>
                obtain ⟨tfs, l₀⟩ := tsl
                simp only [hul, Option.some.injEq, Prod.mk.injEq] at hu
                obtain ⟨rfl, rfl⟩ := hu
                have hnode : (hB ++ [JObj.obj cfs]).get? hB.length
                    = some (.obj cfs) := List.get?_concat_length hB (.obj cfs)
                have heB : HeapExt hB H :=
                  HeapExt.trans ⟨[JObj.obj cfs], rfl⟩ he
                obtain ⟨hkeys, lc, hLu, hLn, hLr⟩ := fieldsStep hcl hul heB
                refine ⟨hB.length :: lc, ?_, ?_, ?_⟩
                · simp only [unfoldF, he.get?_eq hnode, hkeys, if_pos hnd, hLu]
                · refine List.nodup_cons.mpr ⟨fun hm => ?_, hLn⟩
                  exact absurd (hLr _ hm).2 (by omega)
                · intro x hx₀
                  rcases List.mem_cons.mp hx₀ with rfl | hm
                  · refine ⟨(clFieldsH_ext (fun hq => cloneValF_ext n hq)
                      hcl).length_le, by simp⟩
                  · have := hLr x hm
                    constructor
                    · exact this.1
                    · simp only [List.length_append, List.length_cons]
                      omega
          · rw [if_neg hnd] at hu; exact absurd hu (by simp)
theorem alookup_eq_none {vis : List (Nat × Nat)} {a : Nat}
    (h : a ∉ vkeys vis) : alookup vis a = none := by
  induction vis with
  | nil => rfl
  | cons kv rest ih =>
    obtain ⟨k, v⟩ := kv
    simp only [vkeys, List.map_cons, List.mem_cons] at h
    push_neg at h
    simp only [alookup, if_neg (Ne.symm h.1)]
    exact ih (by simpa [vkeys] using h.2)

theorem fget_of_nodup : ∀ {fa : List (String × JVal)},
    (fa.map Prod.fst).Nodup → ∀ kv ∈ fa, fget fa kv.1 = kv.2 := by
  intro fa
  induction fa with
  | nil => intro _ kv hkv; exact absurd hkv (by simp)
  | cons kw fa ih =>
    obtain ⟨k, w⟩ := kw
    intro hnd kv hkv
    simp only [List.map_cons, List.nodup_cons] at hnd
    rcases List.mem_cons.mp hkv with rfl | hm
    · simp [fget]
    · have hne : k ≠ kv.1 := by
        intro hgg
        exact hnd.1 (hgg ▸ List.mem_map.mpr ⟨kv, hm, rfl⟩)
      simp only [fget, if_neg hne]
      exact ih hnd.2 kv hm
theorem isEqualF_ref_prim (n : Nat) (H : Heap) (ra : Nat) (q : JPrim)
    (vis : List (Nat × Nat)) :
    isEqualF (n + 1) H (.ref ra) (.prim q) vis
      = (structEqF (n + 1) H (.ref ra) (.prim q)).map (fun r => (r, vis)) := by
  cases q <;>
    simp [isEqualF, structEqF, JVal.isNullish, JVal.objIs, JVal.typeOf]

theorem isEqualF_eq_structEqF : ∀ (n : Nat) {H : Heap} {a : JVal} {t : Tree}
    {l : List Nat}, unfoldF n H a = some (t, l) → l.Nodup →
    ∀ (b : JVal) (vis : List (Nat × Nat)), (∀ x ∈ l, x ∉ vkeys vis) →
    (isEqualF n H a b vis).map Prod.fst = structEqF n H a b ∧
    (∀ r vis', isEqualF n H a b vis = some (r, vis') →
      ∀ k ∈ vkeys vis', k ∈ vkeys vis ∨ k ∈ l) := by
  intro n
  induction n with
  | zero => intro H a t l hu; exact absurd hu (by simp [unfoldF])
  | succ n ih =>
    have listL1 : ∀ {H : Heap} {es : List JVal} {ts : List Tree} {l₀ : List Nat},
        unfListH (unfoldF n H) es = some (ts, l₀) → l₀.Nodup →
        ∀ (bs : List JVal) (vis : List (Nat × Nat)),
          (∀ x ∈ l₀, x ∉ vkeys vis) →
        (eqListH (isEqualF n H) es bs vis).map Prod.fst
          = seqListH (structEqF n H) es bs ∧
        (∀ r vis', eqListH (isEqualF n H) es bs vis = some (r, vis') →
          ∀ k ∈ vkeys vis', k ∈ vkeys vis ∨ k ∈ l₀) := by
      intro H es
      induction es with
      | nil =>
        intro ts l₀ hu _ bs vis _
        simp only [unfListH, Option.some.injEq, Prod.mk.injEq] at hu
        constructor
        · simp [eqListH, seqListH]
        · intro r vis' hr
          simp only [eqListH, Option.some.injEq, Prod.mk.injEq] at hr
          intro k hk
          exact Or.inl (hr.2 ▸ hk)
      | cons x xs ihl =>
        intro ts l₀ hu hnd bs vis hdis
        simp only [unfListH] at hu
        cases hux : unfoldF n H x with
        | none => rw [hux] at hu; exact absurd hu (by simp)
        | some tl₁ =>
          obtain ⟨t₁, l₁⟩ := tl₁
          simp only [hux] at hu
          cases huxs : unfListH (unfoldF n H) xs with
          | none => simp only [huxs] at hu; exact absurd hu (by simp)
          | some tsls =>
            obtain ⟨ts', ls'⟩ := tsls
            simp only [huxs, Option.some.injEq, Prod.mk.injEq] at hu
            obtain ⟨rfl, rfl⟩ := hu
            rw [List.nodup_append] at hnd
            obtain ⟨hnd₁, hnd₂, hdj⟩ := hnd
            cases bs with
            | nil =>
              constructor
              · simp [eqListH, seqListH]
              · intro r vis' hr
                simp only [eqListH, Option.some.injEq, Prod.mk.injEq] at hr
                intro k hk
                exact Or.inl (hr.2 ▸ hk)
            | cons y ys =>
              have hdis₁ : ∀ z ∈ l₁, z ∉ vkeys vis := fun z hz =>
                hdis z (List.mem_append.mpr (Or.inl hz))
              obtain ⟨hmap₁, hbound₁⟩ := ih hux hnd₁ y vis hdis₁
              simp only [eqListH, seqListH]
              cases hse : structEqF n H x y with
              | none =>
                rw [hse] at hmap₁
                cases hie : isEqualF n H x y vis with
                | none => simp [hie]
                | some rv => rw [hie] at hmap₁; exact absurd hmap₁ (by simp)
              | some r₁ =>
                rw [hse] at hmap₁
                cases hie : isEqualF n H x y vis with
                | none => rw [hie] at hmap₁; exact absurd hmap₁ (by simp)
                | some rv =>
                  obtain ⟨r₁', vis₂⟩ := rv
                  rw [hie] at hmap₁
                  simp only [Option.map_some', Option.some.injEq] at hmap₁
                  subst hmap₁
                  cases r₁' with
                  | false =>
                    refine ⟨?_, ?_⟩
                    · simp [hie, hse]
                    · intro r vis' hr
                      simp only [hie, Option.some.injEq, Prod.mk.injEq] at hr
                      intro k hk
                      rcases hbound₁ _ _ hie k (hr.2 ▸ hk) with hk₁ | hk₂
                      · exact Or.inl hk₁
                      · exact Or.inr (List.mem_append.mpr (Or.inl hk₂))
                  | true =>
                    have hdis₂ : ∀ z ∈ ls', z ∉ vkeys vis₂ := by
                      intro z hz hzk
                      rcases hbound₁ _ _ hie z hzk with hk₁ | hk₂
                      · exact hdis z (List.mem_append.mpr (Or.inr hz)) hk₁
                      · exact hdj hk₂ hz
                    obtain ⟨hmap₂, hbound₂⟩ := ihl huxs hnd₂ ys vis₂ hdis₂
                    refine ⟨?_, ?_⟩
                    · simp only [hie, hse]
                      exact hmap₂
                    · intro r vis' hr
                      simp only [hie] at hr
                      intro k hk
                      rcases hbound₂ _ _ hr k hk with hk₁ | hk₂
                      · rcases hbound₁ _ _ hie k hk₁ with hj₁ | hj₂
                        · exact Or.inl hj₁
                        · exact Or.inr (List.mem_append.mpr (Or.inl hj₂))
                      · exact Or.inr (List.mem_append.mpr (Or.inr hk₂))
    have fieldsL1 : ∀ {H : Heap} {fa' : List (String × JVal)}
        {tfs : List (String × Tree)} {l₀ : List Nat},
        unfFieldsH (unfoldF n H) fa' = some (tfs, l₀) → l₀.Nodup →
        ∀ (fa fb : List (String × JVal)) (vis : List (Nat × Nat)),
          (∀ kv ∈ fa', fget fa kv.1 = kv.2) →
          (∀ x ∈ l₀, x ∉ vkeys vis) →
        (eqFieldsH (isEqualF n H) (fa'.map Prod.fst) fa fb vis).map Prod.fst
          = seqFieldsH (structEqF n H) (fa'.map Prod.fst) fa fb ∧
        (∀ r vis', eqFieldsH (isEqualF n H) (fa'.map Prod.fst) fa fb vis
            = some (r, vis') →
          ∀ k ∈ vkeys vis', k ∈ vkeys vis ∨ k ∈ l₀) := by
      intro H fa'
      induction fa' with
      | nil =>
        intro tfs l₀ hu _ fa fb vis _ _
        simp only [unfFieldsH, Option.some.injEq, Prod.mk.injEq] at hu
        constructor
        · simp [eqFieldsH, seqFieldsH]
        · intro r vis' hr
          simp only [List.map_nil, eqFieldsH, Option.some.injEq,
            Prod.mk.injEq] at hr
          intro k hk
          exact Or.inl (hr.2 ▸ hk)
      | cons kv fs ihl =>
        obtain ⟨k, v⟩ := kv
        intro tfs l₀ hu hnd fa fb vis hfget hdis
        simp only [unfFieldsH] at hu
        cases hux : unfoldF n H v with
        | none => rw [hux] at hu; exact absurd hu (by simp)
        | some tl₁ =>
          obtain ⟨t₁, l₁⟩ := tl₁
          simp only [hux] at hu
          cases huxs : unfFieldsH (unfoldF n H) fs with
          | none => simp only [huxs] at hu; exact absurd hu (by simp)
          | some tsls =>
            obtain ⟨tfs', ls'⟩ := tsls
            simp only [huxs, Option.some.injEq, Prod.mk.injEq] at hu
            obtain ⟨rfl, rfl⟩ := hu
            rw [List.nodup_append] at hnd
            obtain ⟨hnd₁, hnd₂, hdj⟩ := hnd
            have hfav : fget fa k = v := hfget (k, v) (by simp)
            have hdis₁ : ∀ z ∈ l₁, z ∉ vkeys vis := fun z hz =>
              hdis z (List.mem_append.mpr (Or.inl hz))
            obtain ⟨hmap₁, hbound₁⟩ := ih hux hnd₁ (fget fb k) vis hdis₁
            simp only [List.map_cons, eqFieldsH, seqFieldsH, hfav]
            cases hse : structEqF n H v (fget fb k) with
            | none =>
              rw [hse] at hmap₁
              cases hie : isEqualF n H v (fget fb k) vis with
              | none => simp [hie]
              | some rv => rw [hie] at hmap₁; exact absurd hmap₁ (by simp)
            | some r₁ =>
              rw [hse] at hmap₁
              cases hie : isEqualF n H v (fget fb k) vis with
              | none => rw [hie] at hmap₁; exact absurd hmap₁ (by simp)
              | some rv =>
                obtain ⟨r₁', vis₂⟩ := rv
                rw [hie] at hmap₁
                simp only [Option.map_some', Option.some.injEq] at hmap₁
                subst hmap₁
                cases r₁' with
                | false =>
                  refine ⟨?_, ?_⟩
                  · simp [hie, hse]
                  · intro r vis' hr
                    simp only [hie, Option.some.injEq, Prod.mk.injEq] at hr
                    intro j hj
                    rcases hbound₁ _ _ hie j (hr.2 ▸ hj) with hk₁ | hk₂
                    · exact Or.inl hk₁
                    · exact Or.inr (List.mem_append.mpr (Or.inl hk₂))
                | true =>
                  have hdis₂ : ∀ z ∈ ls', z ∉ vkeys vis₂ := by
                    intro z hz hzk
                    rcases hbound₁ _ _ hie z hzk with hk₁ | hk₂
                    · exact hdis z (List.mem_append.mpr (Or.inr hz)) hk₁
                    · exact hdj hk₂ hz
                  have hfget₂ : ∀ kv ∈ fs, fget fa kv.1 = kv.2 := fun kv hkv =>
                    hfget kv (by simp [hkv])
                  obtain ⟨hmap₂, hbound₂⟩ := ihl huxs hnd₂ fa fb vis₂ hfget₂ hdis₂
                  refine ⟨?_, ?_⟩
                  · simp only [hie, hse]
                    exact hmap₂
                  · intro r vis' hr
                    simp only [hie] at hr
                    intro j hj
                    rcases hbound₂ _ _ hr j hj with hk₁ | hk₂
                    · rcases hbound₁ _ _ hie j hk₁ with hj₁ | hj₂
                      · exact Or.inl hj₁
                      · exact Or.inr (List.mem_append.mpr (Or.inl hj₂))
                    · exact Or.inr (List.mem_append.mpr (Or.inr hk₂))
    intro H a t l hu hnd b vis hdis
    cases a with
    | prim p =>
      constructor
      · rw [isEqualF_prim_left]
        cases structEqF (n + 1) H (.prim p) b <;> simp
      · intro r vis' hr
        rw [isEqualF_prim_left] at hr
        cases hs : structEqF (n + 1) H (.prim p) b with
        | none => rw [hs] at hr; exact absurd hr (by simp)
        | some r₀ =>
          rw [hs] at hr
          simp only [Option.map_some', Option.some.injEq, Prod.mk.injEq] at hr
          intro k hk
          exact Or.inl (hr.2 ▸ hk)
    | ref ra =>
      cases hg : H.get? ra with
      | none => simp only [unfoldF, hg] at hu; exact absurd hu (by simp)
      | some node =>
        have hra_l : ra ∈ l := by
          cases node with
          | arr es =>
            simp only [unfoldF, hg] at hu
            cases hul : unfListH (unfoldF n H) es with
            | none => rw [hul] at hu; exact absurd hu (by simp)
            | some tsl =>
              rw [hul] at hu
              simp only [Option.some.injEq, Prod.mk.injEq] at hu
              simp [← hu.2]
          | obj fs =>
            simp only [unfoldF, hg] at hu
            by_cases hk : (fs.map Prod.fst).Nodup
            · rw [if_pos hk] at hu
              cases hul : unfFieldsH (unfoldF n H) fs with
              | none => rw [hul] at hu; exact absurd hu (by simp)
              | some tsl =>
                rw [hul] at hu
                simp only [Option.some.injEq, Prod.mk.injEq] at hu
                simp [← hu.2]
            · rw [if_neg hk] at hu; exact absurd hu (by simp)
        cases b with
        | prim q =>
          constructor
          · rw [isEqualF_ref_prim]
            cases structEqF (n + 1) H (.ref ra) (.prim q) <;> simp
          · intro r vis' hr
            rw [isEqualF_ref_prim] at hr
            cases hs : structEqF (n + 1) H (.ref ra) (.prim q) with
            | none => rw [hs] at hr; exact absurd hr (by simp)
            | some r₀ =>
              rw [hs] at hr
              simp only [Option.map_some', Option.some.injEq,
                Prod.mk.injEq] at hr
              intro k hk
              exact Or.inl (hr.2 ▸ hk)
        | ref rb =>
          by_cases hab : ra = rb
          · subst hab
            constructor
            · simp [isEqualF, structEqF, JVal.isNullish, JVal.objIs]
            · intro r vis' hr
              simp [isEqualF, JVal.isNullish, JVal.objIs] at hr
              intro k hk
              exact Or.inl (hr.2 ▸ hk)
          · have hvra : alookup vis ra = none :=
              alookup_eq_none (hdis ra hra_l)
            have heq : isEqualF (n + 1) H (.ref ra) (.ref rb) vis
                = (match H.get? ra, H.get? rb with
                  | some (.arr ea), some (.arr eb) =>
                    if ea.length ≠ eb.length then some (false, (ra, rb) :: vis)
                    else eqListH (isEqualF n H) ea eb ((ra, rb) :: vis)
                  | some (.arr _), some (.obj _) =>
                    some (false, (ra, rb) :: vis)
                  | some (.obj _), some (.arr _) =>
                    some (false, (ra, rb) :: vis)
                  | some (.obj fa), some (.obj fb) =>
                    if (fa.map Prod.fst).length ≠ (fb.map Prod.fst).length then
                      some (false, (ra, rb) :: vis)
                    else if ¬ ((fa.map Prod.fst).all fun k =>
                        (fb.map Prod.fst).contains k) then
                      some (false, (ra, rb) :: vis)
                    else eqFieldsH (isEqualF n H) (fa.map Prod.fst) fa fb
                      ((ra, rb) :: vis)
                  | _, _ => none) := by
              simp [isEqualF, JVal.isNullish, JVal.objIs, JVal.typeOf, hab,
                hvra]
            have hseq : structEqF (n + 1) H (.ref ra) (.ref rb)
                = (match H.get? ra, H.get? rb with
                  | some (.arr ea), some (.arr eb) =>
                    if ea.length ≠ eb.length then some false
                    else seqListH (structEqF n H) ea eb
                  | some (.arr _), some (.obj _) => some false
                  | some (.obj _), some (.arr _) => some false
                  | some (.obj fa), some (.obj fb) =>
                    if (fa.map Prod.fst).length ≠ (fb.map Prod.fst).length then
                      some false
                    else if ¬ ((fa.map Prod.fst).all fun k =>
                        (fb.map Prod.fst).contains k) then
                      some false
                    else seqFieldsH (structEqF n H) (fa.map Prod.fst) fa fb
                  | _, _ => none) := by
              simp [structEqF, JVal.isNullish, JVal.objIs, JVal.typeOf, hab]
            rw [heq, hseq] at *
            have hkv : vkeys ((ra, rb) :: vis) = ra :: vkeys vis := rfl
            cases node with
            | arr es =>
              simp only [unfoldF, hg] at hu
              cases hul : unfListH (unfoldF n H) es with
              | none => rw [hul] at hu; exact absurd hu (by simp)
              | some tsl =>
                obtain ⟨ts, l₀⟩ := tsl
                rw [hul] at hu
                simp only [Option.some.injEq, Prod.mk.injEq] at hu
                obtain ⟨rfl, rfl⟩ := hu.symm
                rw [List.nodup_cons] at hnd
                cases hgb : H.get? rb with
                | none => simp [hg, hgb]
                | some nodeB =>
                  cases nodeB with
                  | obj fb =>
                    simp only [hg, hgb]
                    constructor
                    · rfl
                    · intro r vis' hr
                      simp only [Option.some.injEq, Prod.mk.injEq] at hr
                      intro k hk
                      rw [← hr.2, hkv] at hk
                      rcases List.mem_cons.mp hk with rfl | hk₂
                      · exact Or.inr (by simp)
                      · exact Or.inl hk₂
                  | arr eb =>
                    simp only [hg, hgb]
                    by_cases hlen : es.length ≠ eb.length
                    · rw [if_pos hlen, if_pos hlen]
                      constructor
                      · rfl
                      · intro r vis' hr
                        simp only [Option.some.injEq, Prod.mk.injEq] at hr
                        intro k hk
                        rw [← hr.2, hkv] at hk
                        rcases List.mem_cons.mp hk with rfl | hk₂
                        · exact Or.inr (by simp)
                        · exact Or.inl hk₂
                    · rw [if_neg hlen, if_neg hlen]
                      have hdis' : ∀ x ∈ l₀, x ∉ vkeys ((ra, rb) :: vis) := by
                        intro x hx
                        rw [hkv]
                        intro hmem
                        rcases List.mem_cons.mp hmem with rfl | hk₂
                        · exact hnd.1 hx
                        · exact hdis x (by simp [hx]) hk₂
                      obtain ⟨hmapL, hboundL⟩ :=
                        listL1 hul hnd.2 eb ((ra, rb) :: vis) hdis'
                      refine ⟨hmapL, ?_⟩
                      intro r vis' hr
                      intro k hk
                      rcases hboundL _ _ hr k hk with hk₁ | hk₂
                      · rw [hkv] at hk₁
                        rcases List.mem_cons.mp hk₁ with rfl | hj
                        · exact Or.inr (by simp)
                        · exact Or.inl hj
                      · exact Or.inr (by simp [hk₂])
            | obj fs =>
              simp only [unfoldF, hg] at hu
              by_cases hndk : (fs.map Prod.fst).Nodup
              · rw [if_pos hndk] at hu
                cases hul : unfFieldsH (unfoldF n H) fs with
                | none => rw [hul] at hu; exact absurd hu (by simp)
                | some tsl =>
                  obtain ⟨tfs, l₀⟩ := tsl
                  rw [hul] at hu
                  simp only [Option.some.injEq, Prod.mk.injEq] at hu
                  obtain ⟨rfl, rfl⟩ := hu.symm
                  rw [List.nodup_cons] at hnd
                  cases hgb : H.get? rb with
                  | none => simp [hg, hgb]
                  | some nodeB =>
                    cases nodeB with
                    | arr eb =>
                      simp only [hg, hgb]
                      constructor
                      · rfl
                      · intro r vis' hr
                        simp only [Option.some.injEq, Prod.mk.injEq] at hr
                        intro k hk
                        rw [← hr.2, hkv] at hk
                        rcases List.mem_cons.mp hk with rfl | hk₂
                        · exact Or.inr (by simp)
                        · exact Or.inl hk₂
                    | obj fb =>
                      simp only [hg, hgb]
                      by_cases hlen : (fs.map Prod.fst).length
                          ≠ (fb.map Prod.fst).length
                      · rw [if_pos hlen, if_pos hlen]
                        constructor
                        · rfl
                        · intro r vis' hr
                          simp only [Option.some.injEq, Prod.mk.injEq] at hr
                          intro k hk
                          rw [← hr.2, hkv] at hk
                          rcases List.mem_cons.mp hk with rfl | hk₂
                          · exact Or.inr (by simp)
                          · exact Or.inl hk₂
                      · rw [if_neg hlen, if_neg hlen]
                        by_cases hcon : ¬ ((fs.map Prod.fst).all fun k =>
                            (fb.map Prod.fst).contains k)
                        · rw [if_pos hcon, if_pos hcon]
                          constructor
                          · rfl
                          · intro r vis' hr
                            simp only [Option.some.injEq, Prod.mk.injEq] at hr
                            intro k hk
                            rw [← hr.2, hkv] at hk
                            rcases List.mem_cons.mp hk with rfl | hk₂
                            · exact Or.inr (by simp)
                            · exact Or.inl hk₂
                        · rw [if_neg hcon, if_neg hcon]
                          have hdis' : ∀ x ∈ l₀, x ∉ vkeys ((ra, rb) :: vis) := by
                            intro x hx
                            rw [hkv]
                            intro hmem
                            rcases List.mem_cons.mp hmem with rfl | hk₂
                            · exact hnd.1 hx
                            · exact hdis x (by simp [hx]) hk₂
                          obtain ⟨hmapL, hboundL⟩ :=
                            fieldsL1 hul hnd.2 fs fb ((ra, rb) :: vis)
                              (fget_of_nodup hndk) hdis'
                          refine ⟨hmapL, ?_⟩
                          intro r vis' hr
                          intro k hk
                          rcases hboundL _ _ hr k hk with hk₁ | hk₂
                          · rw [hkv] at hk₁
                            rcases List.mem_cons.mp hk₁ with rfl | hj
                            · exact Or.inr (by simp)
                            · exact Or.inl hj
                          · exact Or.inr (by simp [hk₂])
              · rw [if_neg hndk] at hu; exact absurd hu (by simp)
end MVB
namespace MVB
theorem unfListH_length {f : JVal → Option (Tree × List Nat)} :
    ∀ {es : List JVal} {ts : List Tree} {l : List Nat},
    unfListH f es = some (ts, l) → ts.length = es.length := by
  intro es
  induction es with
  | nil => intro ts l h; simp only [unfListH, Option.some.injEq, Prod.mk.injEq] at h; simp [← h.1]
  | cons x xs ih =>
    intro ts l h
    simp only [unfListH] at h
    cases hx : f x with
    | none => rw [hx] at h; exact absurd h (by simp)
    | some tl =>
      simp only [hx] at h
      cases hxs : unfListH f xs with
      | none => simp only [hxs] at h; exact absurd h (by simp)
      | some tsls =>
        simp only [hxs, Option.some.injEq, Prod.mk.injEq] at h
        simp [← h.1, ih hxs]

theorem unfFieldsH_keys {f : JVal → Option (Tree × List Nat)} :
    ∀ {fs : List (String × JVal)} {tfs : List (String × Tree)} {l : List Nat},
    unfFieldsH f fs = some (tfs, l) → tfs.map Prod.fst = fs.map Prod.fst := by
  intro fs
  induction fs with
  | nil => intro tfs l h; simp only [unfFieldsH, Option.some.injEq, Prod.mk.injEq] at h; simp [← h.1]
  | cons kv fs ih =>
    obtain ⟨k, v⟩ := kv
    intro tfs l h
    simp only [unfFieldsH] at h
    cases hx : f v with
    | none => rw [hx] at h; exact absurd h (by simp)
    | some tl =>
      simp only [hx] at h
      cases hxs : unfFieldsH f fs with
      | none => simp only [hxs] at h; exact absurd h (by simp)
      | some tsls =>
        simp only [hxs, Option.some.injEq, Prod.mk.injEq] at h
        simp [← h.1, ih hxs]

theorem unfFieldsH_fget (n : Nat) (H : Heap) :
    ∀ {fb : List (String × JVal)} {tgs : List (String × Tree)} {lg : List Nat},
    unfFieldsH (unfoldF n H) fb = some (tgs, lg) → ∀ (k : String),
    (fget fb k = .prim .undef ∧ lookupT tgs k = .prim .undef) ∨
    ∃ l', unfoldF n H (fget fb k) = some (lookupT tgs k, l') := by
  intro fb
  induction fb with
  | nil =>
    intro tgs lg h k
    simp only [unfFieldsH, Option.some.injEq, Prod.mk.injEq] at h
    exact Or.inl ⟨rfl, by simp [← h.1, lookupT]⟩
  | cons kv fs ih =>
    obtain ⟨k₀, v₀⟩ := kv
    intro tgs lg h k
    simp only [unfFieldsH] at h
    cases hx : unfoldF n H v₀ with
    | none => rw [hx] at h; exact absurd h (by simp)
    | some tl =>
      obtain ⟨t₀, l₀⟩ := tl
      simp only [hx] at h
      cases hxs : unfFieldsH (unfoldF n H) fs with
      | none => simp only [hxs] at h; exact absurd h (by simp)
      | some tsls =>
        obtain ⟨tgs', lg'⟩ := tsls
        simp only [hxs, Option.some.injEq, Prod.mk.injEq] at h
        obtain ⟨rfl, rfl⟩ := h.symm
        by_cases hk : k₀ = k
        · subst hk
          exact Or.inr ⟨l₀, by simp [fget, lookupT, hx]⟩
        · simp only [fget, lookupT, if_neg hk]
          exact ih hxs k
theorem lookupT_of_nodup : ∀ {tfs : List (String × Tree)},
    (tfs.map Prod.fst).Nodup → ∀ kt ∈ tfs, lookupT tfs kt.1 = kt.2 := by
  intro tfs
  induction tfs with
  | nil => intro _ kt hkt; exact absurd hkt (by simp)
  | cons kw tfs ih =>
    obtain ⟨k, w⟩ := kw
    intro hnd kt hkt
    simp only [List.map_cons, List.nodup_cons] at hnd
    rcases List.mem_cons.mp hkt with rfl | hm
    · simp [lookupT]
    · have hne : k ≠ kt.1 := by
        intro hgg
        exact hnd.1 (hgg ▸ List.mem_map.mpr ⟨kt, hm, rfl⟩)
      simp only [lookupT, if_neg hne]
      exact ih hnd.2 kt hm

theorem all_contains_self (l : List String) :
    (l.all fun k => l.contains k) = true := by
  rw [List.all_eq_true]
  intro k hk
  exact List.elem_eq_true_of_mem hk

theorem treeEqB_refl_of_unfold : ∀ (n : Nat) {H : Heap} {v : JVal} {t : Tree}
    {l : List Nat}, unfoldF n H v = some (t, l) → treeEqB t t = true := by
  intro n
  induction n with
  | zero => intro H v t l hu; exact absurd hu (by simp [unfoldF])
  | succ n ih =>
    have listRefl : ∀ {H : Heap} {es : List JVal} {ts : List Tree}
        {l₀ : List Nat}, unfListH (unfoldF n H) es = some (ts, l₀) →
        treeEqListB ts ts = true := by
      intro H es
      induction es with
      | nil =>
        intro ts l₀ hu
        simp only [unfListH, Option.some.injEq, Prod.mk.injEq] at hu
        simp [← hu.1, treeEqListB]
      | cons x xs ihl =>
        intro ts l₀ hu
        simp only [unfListH] at hu
        cases hx : unfoldF n H x with
        | none => rw [hx] at hu; exact absurd hu (by simp)
        | some tl =>
          obtain ⟨t₁, l₁⟩ := tl
          simp only [hx] at hu
          cases hxs : unfListH (unfoldF n H) xs with
          | none => simp only [hxs] at hu; exact absurd hu (by simp)
          | some tsls =>
            obtain ⟨ts', ls'⟩ := tsls
            simp only [hxs, Option.some.injEq, Prod.mk.injEq] at hu
            obtain ⟨rfl, rfl⟩ := hu.symm
            simp [treeEqListB, ih hx, ihl hxs]
    have fieldsRefl : ∀ {H : Heap} {fs : List (String × JVal)}
        {tfs : List (String × Tree)} {l₀ : List Nat},
        unfFieldsH (unfoldF n H) fs = some (tfs, l₀) →
        ∀ (tall : List (String × Tree)),
          (∀ kt ∈ tfs, lookupT tall kt.1 = kt.2) →
        treeEqObjB tfs tall = true := by
      intro H fs
      induction fs with
      | nil =>
        intro tfs l₀ hu tall _
        simp only [unfFieldsH, Option.some.injEq, Prod.mk.injEq] at hu
        simp [← hu.1, treeEqObjB]
      | cons kv fs ihl =>
        obtain ⟨k, v⟩ := kv
        intro tfs l₀ hu tall hlook
        simp only [unfFieldsH] at hu
        cases hx : unfoldF n H v with
        | none => rw [hx] at hu; exact absurd hu (by simp)
        | some tl =>
          obtain ⟨t₁, l₁⟩ := tl
          simp only [hx] at hu
          cases hxs : unfFieldsH (unfoldF n H) fs with
          | none => simp only [hxs] at hu; exact absurd hu (by simp)
          | some tsls =>
            obtain ⟨tfs', ls'⟩ := tsls
            simp only [hxs, Option.some.injEq, Prod.mk.injEq] at hu
            obtain ⟨rfl, rfl⟩ := hu.symm
            have hl₁ : lookupT tall k = t₁ := hlook (k, t₁) (by simp)
            simp only [treeEqObjB, hl₁, ih hx, Bool.true_and]
            exact ihl hxs tall (fun kt hkt => hlook kt (by simp [hkt]))
    intro H v t l hu
    cases v with
    | prim p =>
      simp only [unfoldF, Option.some.injEq, Prod.mk.injEq] at hu
      rw [← hu.1]
      simp [treeEqB]
    | ref a =>
      cases hg : H.get? a with
      | none => simp only [unfoldF, hg] at hu; exact absurd hu (by simp)
      | some node =>
        cases node with
        | arr es =>
          simp only [unfoldF, hg] at hu
          cases hul : unfListH (unfoldF n H) es with
          | none => rw [hul] at hu; exact absurd hu (by simp)
          | some tsl =>
            obtain ⟨ts, l₀⟩ := tsl
            rw [hul] at hu
            simp only [Option.some.injEq, Prod.mk.injEq] at hu
            rw [← hu.1]
            simp [treeEqB, listRefl hul]
        | obj fs =>
          simp only [unfoldF, hg] at hu
          by_cases hndk : (fs.map Prod.fst).Nodup
          · rw [if_pos hndk] at hu
            cases hul : unfFieldsH (unfoldF n H) fs with
            | none => rw [hul] at hu; exact absurd hu (by simp)
            | some tsl =>
              obtain ⟨tfs, l₀⟩ := tsl
              rw [hul] at hu
              simp only [Option.some.injEq, Prod.mk.injEq] at hu
              rw [← hu.1]
              have hkeys : tfs.map Prod.fst = fs.map Prod.fst :=
                unfFieldsH_keys hul
              have hndt : (tfs.map Prod.fst).Nodup := hkeys ▸ hndk
              simp only [treeEqB, beq_self_eq_true, Bool.true_and,
                all_contains_self]
              exact fieldsRefl hul tfs (lookupT_of_nodup hndt)
          · rw [if_neg hndk] at hu; exact absurd hu (by simp)
theorem beq_prim_num (a b : JNum) :
    (JPrim.num a == JPrim.num b) = (a == b) := by
  rw [Bool.eq_iff_iff]; simp

theorem structEqF_prim (n : Nat) (H : Heap) (p q : JPrim) :
    structEqF (n + 1) H (.prim p) (.prim q) = some (p.norm == q.norm) := by
  cases p <;> cases q <;>
    first
      | rfl
      | (simp only [structEqF, JVal.isNullish, JVal.objIs, JVal.typeOf,
          JPrim.norm, JNum.isEqualNum_eq_norm, Bool.or_self, Bool.or_false,
          Bool.false_or, beq_prim_num, if_false, Bool.false_eq_true] <;>
         split <;> simp_all)

theorem structEqF_prim_ref (n : Nat) (H : Heap) (p : JPrim) (rb : Nat) :
    structEqF (n + 1) H (.prim p) (.ref rb) = some false := by
  cases p <;>
    simp [structEqF, JVal.isNullish, JVal.objIs, JVal.typeOf]

theorem structEqF_ref_prim (n : Nat) (H : Heap) (ra : Nat) (q : JPrim) :
    structEqF (n + 1) H (.ref ra) (.prim q) = some false := by
  cases q <;>
    simp [structEqF, JVal.isNullish, JVal.objIs, JVal.typeOf]

theorem unfoldF_undef_of_success {n : Nat} {H : Heap} {x : JVal}
    {r : Tree × List Nat} (hx : unfoldF n H x = some r) :
    unfoldF n H (.prim .undef) = some (.prim .undef, []) := by
  cases n with
  | zero => exact absurd hx (by simp [unfoldF])
  | succ m => simp [unfoldF, JPrim.norm]
theorem structEqF_eq_treeEqB : ∀ (n : Nat) {H : Heap} {a b : JVal}
    {ta tb : Tree} {la lb : List Nat},
    unfoldF n H a = some (ta, la) → unfoldF n H b = some (tb, lb) →
    structEqF n H a b = some (treeEqB ta tb) := by
  intro n
  induction n with
  | zero => intro H a b ta tb la lb hua; exact absurd hua (by simp [unfoldF])
  | succ n ih =>
    have listL2 : ∀ {H : Heap} {es : List JVal} {ts : List Tree}
        {l₀ : List Nat}, unfListH (unfoldF n H) es = some (ts, l₀) →
        ∀ {bs : List JVal} {us : List Tree} {lb : List Nat},
          unfListH (unfoldF n H) bs = some (us, lb) →
        seqListH (structEqF n H) es bs = some (treeEqListB ts us) := by
      intro H es
      induction es with
      | nil =>
        intro ts l₀ hu bs us lb hub
        simp only [unfListH, Option.some.injEq, Prod.mk.injEq] at hu
        simp [← hu.1, seqListH, treeEqListB]
      | cons x xs ihl =>
        intro ts l₀ hu bs us lb hub
        simp only [unfListH] at hu
        cases hx : unfoldF n H x with
        | none => rw [hx] at hu; exact absurd hu (by simp)
        | some tl =>
          obtain ⟨t₁, l₁⟩ := tl
          simp only [hx] at hu
          cases hxs : unfListH (unfoldF n H) xs with
          | none => simp only [hxs] at hu; exact absurd hu (by simp)
          | some tsls =>
            obtain ⟨ts', ls'⟩ := tsls
            simp only [hxs, Option.some.injEq, Prod.mk.injEq] at hu
            obtain ⟨rfl, rfl⟩ := hu.symm
            cases bs with
            | nil =>
              simp only [unfListH, Option.some.injEq, Prod.mk.injEq] at hub
              simp [← hub.1, seqListH, treeEqListB]
            | cons y ys =>
              simp only [unfListH] at hub
              cases hy : unfoldF n H y with
              | none => rw [hy] at hub; exact absurd hub (by simp)
              | some tly =>
                obtain ⟨u₁, lb₁⟩ := tly
                simp only [hy] at hub
                cases hys : unfListH (unfoldF n H) ys with
                | none => simp only [hys] at hub; exact absurd hub (by simp)
                | some tsls₂ =>
                  obtain ⟨us', lbs'⟩ := tsls₂
                  simp only [hys, Option.some.injEq, Prod.mk.injEq] at hub
                  obtain ⟨rfl, rfl⟩ := hub.symm
                  simp only [seqListH, treeEqListB, ih hx hy]
                  cases hteq : treeEqB t₁ u₁ with
                  | false => simp
                  | true => simp [ihl hxs hys]
    have fieldsL2 : ∀ {H : Heap} {fa' : List (String × JVal)}
        {tfs : List (String × Tree)} {l₀ : List Nat},
        unfFieldsH (unfoldF n H) fa' = some (tfs, l₀) →
        ∀ {fa fb : List (String × JVal)} {tgs : List (String × Tree)}
          {lg : List Nat},
          unfFieldsH (unfoldF n H) fb = some (tgs, lg) →
          (∀ kv ∈ fa', fget fa kv.1 = kv.2) →
        seqFieldsH (structEqF n H) (fa'.map Prod.fst) fa fb
          = some (treeEqObjB tfs tgs) := by
      intro H fa'
      induction fa' with
      | nil =>
        intro tfs l₀ hu fa fb tgs lg hub _
        simp only [unfFieldsH, Option.some.injEq, Prod.mk.injEq] at hu
        simp [← hu.1, seqFieldsH, treeEqObjB]
      | cons kv fs ihl =>
        obtain ⟨k, v⟩ := kv
        intro tfs l₀ hu fa fb tgs lg hub hfget
        simp only [unfFieldsH] at hu
        cases hx : unfoldF n H v with
        | none => rw [hx] at hu; exact absurd hu (by simp)
        | some tl =>
          obtain ⟨t₁, l₁⟩ := tl
          simp only [hx] at hu
          cases hxs : unfFieldsH (unfoldF n H) fs with
          | none => simp only [hxs] at hu; exact absurd hu (by simp)
          | some tsls =>
            obtain ⟨tfs', ls'⟩ := tsls
            simp only [hxs, Option.some.injEq, Prod.mk.injEq] at hu
            obtain ⟨rfl, rfl⟩ := hu.symm
            have hfav : fget fa k = v := hfget (k, v) (by simp)
            have hb : structEqF n H v (fget fb k)
                = some (treeEqB t₁ (lookupT tgs k)) := by
              rcases unfFieldsH_fget n H hub k with ⟨hbv, hbt⟩ | ⟨l', hbu⟩
              · rw [hbv, hbt]
                exact ih hx (unfoldF_undef_of_success hx)
              · exact ih hx hbu
            simp only [List.map_cons, seqFieldsH, hfav, hb, treeEqObjB]
            cases hteq : treeEqB t₁ (lookupT tgs k) with
            | false => simp
            | true => simp [ihl hxs hub (fun kv hkv => hfget kv (by simp [hkv]))]
    intro H a b ta tb la lb hua hub
    cases a with
    | prim p =>
      cases b with
      | prim q =>
        simp only [unfoldF, Option.some.injEq, Prod.mk.injEq] at hua hub
        rw [structEqF_prim, ← hua.1, ← hub.1]
        rfl
      | ref rb =>
        simp only [unfoldF, Option.some.injEq, Prod.mk.injEq] at hua
        rw [structEqF_prim_ref, ← hua.1]
        cases hg : H.get? rb with
        | none => simp only [unfoldF, hg] at hub; exact absurd hub (by simp)
        | some node =>
          cases node with
          | arr es =>
            simp only [unfoldF, hg] at hub
            cases hul : unfListH (unfoldF n H) es with
            | none => rw [hul] at hub; exact absurd hub (by simp)
            | some tsl =>
              rw [hul] at hub
              simp only [Option.some.injEq, Prod.mk.injEq] at hub
              rw [← hub.1]
              cases p <;> rfl
          | obj fs =>
            simp only [unfoldF, hg] at hub
            by_cases hndk : (fs.map Prod.fst).Nodup
            · rw [if_pos hndk] at hub
              cases hul : unfFieldsH (unfoldF n H) fs with
              | none => rw [hul] at hub; exact absurd hub (by simp)
              | some tsl =>
                rw [hul] at hub
                simp only [Option.some.injEq, Prod.mk.injEq] at hub
                rw [← hub.1]
                cases p <;> rfl
            · rw [if_neg hndk] at hub; exact absurd hub (by simp)
    | ref ra =>
      cases b with
      | prim q =>
        simp only [unfoldF, Option.some.injEq, Prod.mk.injEq] at hub
        rw [structEqF_ref_prim, ← hub.1]
        cases hg : H.get? ra with
        | none => simp only [unfoldF, hg] at hua; exact absurd hua (by simp)
        | some node =>
          cases node with
          | arr es =>
            simp only [unfoldF, hg] at hua
            cases hul : unfListH (unfoldF n H) es with
            | none => rw [hul] at hua; exact absurd hua (by simp)
            | some tsl =>
              rw [hul] at hua
              simp only [Option.some.injEq, Prod.mk.injEq] at hua
              rw [← hua.1]
              cases q <;> rfl
          | obj fs =>
            simp only [unfoldF, hg] at hua
            by_cases hndk : (fs.map Prod.fst).Nodup
            · rw [if_pos hndk] at hua
              cases hul : unfFieldsH (unfoldF n H) fs with
              | none => rw [hul] at hua; exact absurd hua (by simp)
              | some tsl =>
                rw [hul] at hua
                simp only [Option.some.injEq, Prod.mk.injEq] at hua
                rw [← hua.1]
                cases q <;> rfl
            · rw [if_neg hndk] at hua; exact absurd hua (by simp)
      | ref rb =>
        by_cases hab : ra = rb
        · subst hab
          rw [hua] at hub
          simp only [Option.some.injEq, Prod.mk.injEq] at hub
          rw [← hub.1]
          have : structEqF (n + 1) H (.ref ra) (.ref ra) = some true := by
            simp [structEqF, JVal.isNullish, JVal.objIs]
          rw [this, treeEqB_refl_of_unfold (n + 1) hua]
        · have hstep : structEqF (n + 1) H (.ref ra) (.ref rb)
              = (match H.get? ra, H.get? rb with
                | some (.arr ea), some (.arr eb) =>
                  if ea.length ≠ eb.length then some false
                  else seqListH (structEqF n H) ea eb
                | some (.arr _), some (.obj _) => some false
                | some (.obj _), some (.arr _) => some false
                | some (.obj fa), some (.obj fb) =>
                  if (fa.map Prod.fst).length ≠ (fb.map Prod.fst).length then
                    some false
                  else if ¬ ((fa.map Prod.fst).all fun k =>
                      (fb.map Prod.fst).contains k) then
                    some false
                  else seqFieldsH (structEqF n H) (fa.map Prod.fst) fa fb
                | _, _ => none) := by
            simp [structEqF, JVal.isNullish, JVal.objIs, JVal.typeOf, hab]
          rw [hstep]
          cases hga : H.get? ra with
          | none => simp only [unfoldF, hga] at hua; exact absurd hua (by simp)
          | some nodeA =>
            cases hgb : H.get? rb with
            | none => simp only [unfoldF, hgb] at hub; exact absurd hub (by simp)
            | some nodeB =>
              cases nodeA with
              | arr es =>
                simp only [unfoldF, hga] at hua
                cases hula : unfListH (unfoldF n H) es with
                | none => rw [hula] at hua; exact absurd hua (by simp)
                | some tsla =>
                  obtain ⟨ts, l₀⟩ := tsla
                  rw [hula] at hua
                  simp only [Option.some.injEq, Prod.mk.injEq] at hua
                  obtain ⟨rfl, rfl⟩ := hua.symm
                  cases nodeB with
                  | obj fb =>
                    simp only [unfoldF, hgb] at hub
                    by_cases hndk : (fb.map Prod.fst).Nodup
                    · rw [if_pos hndk] at hub
                      cases hulb : unfFieldsH (unfoldF n H) fb with
                      | none => rw [hulb] at hub; exact absurd hub (by simp)
                      | some tslb =>
                        rw [hulb] at hub
                        simp only [Option.some.injEq, Prod.mk.injEq] at hub
                        simp only [hga, hgb]
                        rw [← hub.1]
                        rfl
                    · rw [if_neg hndk] at hub; exact absurd hub (by simp)
                  | arr eb =>
                    simp only [unfoldF, hgb] at hub
                    cases hulb : unfListH (unfoldF n H) eb with
                    | none => rw [hulb] at hub; exact absurd hub (by simp)
                    | some tslb =>
                      obtain ⟨us, lb₀⟩ := tslb
                      rw [hulb] at hub
                      simp only [Option.some.injEq, Prod.mk.injEq] at hub
                      obtain ⟨rfl, rfl⟩ := hub.symm
                      simp only [hga, hgb]
                      have hlents : ts.length = es.length := unfListH_length hula
                      have hlenus : us.length = eb.length := unfListH_length hulb
                      by_cases hlen : es.length ≠ eb.length
                      · rw [if_pos hlen]
                        have : (ts.length == us.length) = false := by
                          rw [hlents, hlenus]
                          exact beq_eq_false_iff_ne.mpr hlen
                        simp only [treeEqB, this, Bool.false_and]
                      · rw [if_neg hlen]
                        push_neg at hlen
                        have : (ts.length == us.length) = true := by
                          rw [hlents, hlenus]; exact beq_iff_eq.mpr hlen
                        simp only [treeEqB, this, Bool.true_and]
                        exact listL2 hula hulb
              | obj fs =>
                simp only [unfoldF, hga] at hua
                by_cases hndka : (fs.map Prod.fst).Nodup
                · rw [if_pos hndka] at hua
                  cases hula : unfFieldsH (unfoldF n H) fs with
                  | none => rw [hula] at hua; exact absurd hua (by simp)
                  | some tsla =>
                    obtain ⟨tfs, l₀⟩ := tsla
                    rw [hula] at hua
                    simp only [Option.some.injEq, Prod.mk.injEq] at hua
                    obtain ⟨rfl, rfl⟩ := hua.symm
                    cases nodeB with
                    | arr eb =>
                      simp only [unfoldF, hgb] at hub
                      cases hulb : unfListH (unfoldF n H) eb with
                      | none => rw [hulb] at hub; exact absurd hub (by simp)
                      | some tslb =>
                        rw [hulb] at hub
                        simp only [Option.some.injEq, Prod.mk.injEq] at hub
                        simp only [hga, hgb]
                        rw [← hub.1]
                        rfl
                    | obj fb =>
                      simp only [unfoldF, hgb] at hub
                      by_cases hndkb : (fb.map Prod.fst).Nodup
                      · rw [if_pos hndkb] at hub
                        cases hulb : unfFieldsH (unfoldF n H) fb with
                        | none => rw [hulb] at hub; exact absurd hub (by simp)
                        | some tslb =>
                          obtain ⟨tgs, lg₀⟩ := tslb
                          rw [hulb] at hub
                          simp only [Option.some.injEq, Prod.mk.injEq] at hub
                          obtain ⟨rfl, rfl⟩ := hub.symm
                          simp only [hga, hgb]
                          have hka : tfs.map Prod.fst = fs.map Prod.fst :=
                            unfFieldsH_keys hula
                          have hkb : tgs.map Prod.fst = fb.map Prod.fst :=
                            unfFieldsH_keys hulb
                          by_cases hlen : (fs.map Prod.fst).length
                              ≠ (fb.map Prod.fst).length
                          · rw [if_pos hlen]
                            have : ((tfs.map Prod.fst).length
                                == (tgs.map Prod.fst).length) = false := by
                              rw [hka, hkb]
                              exact beq_eq_false_iff_ne.mpr hlen
                            simp only [treeEqB, this, Bool.false_and]
                          · rw [if_neg hlen]
                            push_neg at hlen
                            have hlen' : ((tfs.map Prod.fst).length
                                == (tgs.map Prod.fst).length) = true := by
                              rw [hka, hkb]; exact beq_iff_eq.mpr hlen
                            by_cases hcon : ¬ ((fs.map Prod.fst).all fun k =>
                                (fb.map Prod.fst).contains k)
                            · rw [if_pos hcon]
                              have : ((tfs.map Prod.fst).all fun k =>
                                  (tgs.map Prod.fst).contains k) = false := by
                                rw [hka, hkb]
                                exact Bool.eq_false_iff.mpr hcon
                              simp only [treeEqB, this, Bool.and_false,
                                Bool.false_and]
                            · rw [if_neg hcon]
                              rw [not_not] at hcon
                              have hcon' : ((tfs.map Prod.fst).all fun k =>
                                  (tgs.map Prod.fst).contains k) = true := by
                                rw [hka, hkb]; exact hcon
                              simp only [treeEqB, hlen', hcon', Bool.true_and]
                              exact fieldsL2 hula hulb (fget_of_nodup hndka)
                      · rw [if_neg hndkb] at hub; exact absurd hub (by simp)
                · rw [if_neg hndka] at hua; exact absurd hua (by simp)
end MVB
namespace MVB
/-- **C9** — `isEqual` (equality.js) treats `NaN` as equal to `NaN` and `-0`
as equal to `+0`: for any fuel, heap and visited map, `isEqual(NaN, NaN)`
returns `true` and `isEqual(-0, 0)` returns `true` (the numeric branch runs
before `Object.is`, so numeric `===` semantics plus the explicit NaN check
decide both). -/
theorem isEqual_numeric_edge_cases :
    (∀ (n : Nat) (h : Heap) (vis : List (Nat × Nat)),
      isEqualF (n + 1) h (.prim (.num .nan)) (.prim (.num .nan)) vis
        = some (true, vis)) ∧
    (∀ (n : Nat) (h : Heap) (vis : List (Nat × Nat)),
      isEqualF (n + 1) h (.prim (.num .negZero)) (.prim (.num (.int 0))) vis
        = some (true, vis)) :=
  ⟨fun _ _ _ => rfl, fun _ _ _ => rfl⟩

/-- **C2 (counterexample)** — it is not true that whenever the same left-hand
object is encountered again (its reference has an entry in the visited map),
the pair compares equal only if it is paired with the same right-hand object
as before: comparing reference `0` against reference `0` itself with the
visited map `[(0, 1)]` returns `true` via the `Object.is` shortcut although
`0` was previously paired with `1 ≠ 0`. -/
theorem isEqual_revisit_pair_counterexample :
    ¬ (∀ (n : Nat) (h : Heap) (ra rb : Nat) (vis : List (Nat × Nat))
        (prev : Nat), alookup vis ra = some prev →
        (isEqualF n h (.ref ra) (.ref rb) vis).map Prod.fst = some true →
        prev = rb) := by
  intro hcl
  have h01 := hcl 5 [] 0 0 [(0, 1)] 1 rfl (by decide)
  exact absurd h01 (by decide)

/-- **C2 (amended)** — `isEqual` tracks visited pairs keyed by the left-hand
object: when the same left-hand object is encountered a second time with a
*distinct* right-hand object (so the `Object.is` shortcut does not fire
first), the pair compares equal exactly when it is paired with the same
right-hand object as before; consequently `isEqual` returns `false` for the
cyclic `{a:1, self:<self>}` against the structurally similar acyclic
nesting, and `true` for two independently-cyclic, structurally-identical
graphs. -/
theorem isEqual_revisit_pair_amended :
    (∀ (n : Nat) (h : Heap) (ra rb : Nat) (vis : List (Nat × Nat))
      (prev : Nat), alookup vis ra = some prev → ra ≠ rb →
      isEqualF (n + 1) h (.ref ra) (.ref rb) vis = some ((prev == rb), vis)) ∧
    (isEqualF 10 heapCyclicVsAcyclic (.ref 0) (.ref 1) []).map Prod.fst
      = some false ∧
    (isEqualF 10 heapTwoCycles (.ref 0) (.ref 1) []).map Prod.fst
      = some true := by
  refine ⟨?_, by decide, by decide⟩
  intro n h ra rb vis prev hlook hab
  simp [isEqualF, JVal.isNullish, JVal.objIs, JVal.typeOf, hab, hlook]

/-- Witness for the amended C2 theorem at a concrete revisit. -/
theorem isEqual_revisit_pair_amended_witness :
    isEqualF 5 [] (.ref 0) (.ref 1) [(0, 2)] = some (false, [(0, 2)]) := by
  have h := isEqual_revisit_pair_amended.1 4 [] 0 1 [(0, 2)] 2 rfl
    (by decide)
  simpa using h
theorem unfoldF_ref_mem {n : Nat} {H : Heap} {ra : Nat} {t : Tree}
    {l : List Nat} (hu : unfoldF n H (.ref ra) = some (t, l)) : ra ∈ l := by
  cases n with
  | zero => exact absurd hu (by simp [unfoldF])
  | succ n =>
    cases hg : H.get? ra with
    | none => simp only [unfoldF, hg] at hu; exact absurd hu (by simp)
    | some node =>
      cases node with
      | arr es =>
        simp only [unfoldF, hg] at hu
        cases hul : unfListH (unfoldF n H) es with
        | none => rw [hul] at hu; exact absurd hu (by simp)
        | some tsl =>
          rw [hul] at hu
          simp only [Option.some.injEq, Prod.mk.injEq] at hu
          simp [← hu.2]
      | obj fs =>
        simp only [unfoldF, hg] at hu
        by_cases hnd : (fs.map Prod.fst).Nodup
        · rw [if_pos hnd] at hu
          cases hul : unfFieldsH (unfoldF n H) fs with
          | none => rw [hul] at hu; exact absurd hu (by simp)
          | some tsl =>
            rw [hul] at hu
            simp only [Option.some.injEq, Prod.mk.injEq] at hu
            simp [← hu.2]
        · rw [if_neg hnd] at hu; exact absurd hu (by simp)

theorem unfoldF_ref_shape {n : Nat} {H : Heap} {ra : Nat} {t : Tree}
    {l : List Nat} (hu : unfoldF n H (.ref ra) = some (t, l)) :
    (∃ ts, t = .arr ts) ∨ (∃ tfs, t = .obj tfs) := by
  cases n with
  | zero => exact absurd hu (by simp [unfoldF])
  | succ n =>
    cases hg : H.get? ra with
    | none => simp only [unfoldF, hg] at hu; exact absurd hu (by simp)
    | some node =>
      cases node with
      | arr es =>
        simp only [unfoldF, hg] at hu
        cases hul : unfListH (unfoldF n H) es with
        | none => rw [hul] at hu; exact absurd hu (by simp)
        | some tsl =>
          rw [hul] at hu
          simp only [Option.some.injEq, Prod.mk.injEq] at hu
          exact Or.inl ⟨tsl.1, hu.1.symm⟩
      | obj fs =>
        simp only [unfoldF, hg] at hu
        by_cases hnd : (fs.map Prod.fst).Nodup
        · rw [if_pos hnd] at hu
          cases hul : unfFieldsH (unfoldF n H) fs with
          | none => rw [hul] at hu; exact absurd hu (by simp)
          | some tsl =>
            rw [hul] at hu
            simp only [Option.some.injEq, Prod.mk.injEq] at hu
            exact Or.inr ⟨tsl.1, hu.1.symm⟩
        · rw [if_neg hnd] at hu; exact absurd hu (by simp)

theorem optMapFst_extract {o : Option (Bool × List (Nat × Nat))} {b : Bool}
    (h : o.map Prod.fst = some b) : ∃ p, o = some (b, p) := by
  cases o with
  | none => exact absurd h (by simp)
  | some rv =>
    obtain ⟨r₀, p⟩ := rv
    simp only [Option.map_some', Option.some.injEq] at h
    exact ⟨p, by rw [h]⟩
theorem sget_sset_self : ∀ (l : List (String × JVal)) (k : String) (v : JVal),
    sget (sset l k v) k = v := by
  intro l k v
  induction l with
  | nil => simp [sset, sget]
  | cons kw l ih =>
    obtain ⟨k₀, w⟩ := kw
    by_cases hk : k₀ = k
    · simp [sset, sget, hk]
    · simp only [sset, if_neg hk, sget]
      exact ih

theorem unfoldF_ref_lt {n : Nat} {H : Heap} {ra : Nat}
    {r : Tree × List Nat} (hu : unfoldF n H (.ref ra) = some r) :
    ra < H.length := by
  cases n with
  | zero => exact absurd hu (by simp [unfoldF])
  | succ n =>
    cases hg : H.get? ra with
    | none => simp only [unfoldF, hg] at hu; exact absurd hu (by simp)
    | some node => exact get?_lt hg
/-- **C1** — for every data-slot name `p` and every non-cyclic value `v`
(object, array or primitive; non-cyclicity and well-formedness of the
involved values are expressed as their unfoldings existing within the call's
fuel), after the data-slot assignment `bridgingObject[p] = v` with
`allowDirectMutation` enabled: the bridging object's backing value at `p` is
deeply equal (`isEqual`) to `v`, the source object's member `p` is deeply
equal to `v`, and when `v` is an object the stored backing value is a clone,
not the same reference as `v` (given that the caller's `v` is not the
bridge's own current backing reference, which the bridge never exposes). -/
theorem dataSlotSet_deep_syncs_and_clones
    (fuel : Nat) (s : BridgeState) (prop : String) (v : JVal)
    (tb tm tv : Tree) (lb lm lv : List Nat) (r : OpResult)
    (hub : unfoldF fuel s.heap (sget s.propertyRefs prop) = some (tb, lb))
    (hnb : lb.Nodup)
    (hum : unfoldF fuel s.heap (sget s.mobx prop) = some (tm, lm))
    (hnm : lm.Nodup)
    (huv : unfoldF fuel s.heap v = some (tv, lv))
    (hr : dataSlotSet true fuel prop v none s = some r) :
    ((isEqualF fuel r.state.heap (sget r.state.propertyRefs prop) v []).map
        Prod.fst = some true) ∧
    ((isEqualF fuel r.state.heap (sget r.state.mobx prop) v []).map
        Prod.fst = some true) ∧
    (∀ a, v = .ref a → sget s.propertyRefs prop ≠ v →
      sget r.state.propertyRefs prop ≠ v) := by
  simp only [dataSlotSet, Bool.not_true, Bool.false_eq_true, if_false] at hr
  cases hc : cloneValF fuel s.heap v with
  | none => rw [hc] at hr; exact absurd hr (by simp)
  | some ch =>
    obtain ⟨cloned, h₁⟩ := ch
    simp only [hc] at hr
    have hext : HeapExt s.heap h₁ := cloneValF_ext fuel hc
    obtain ⟨lc, hcu, hcn, hcr⟩ := cloneValF_unfold fuel hc huv (HeapExt.rfl h₁)
    have hub₁ := unfoldF_mono fuel hext hub
    have hum₁ := unfoldF_mono fuel hext hum
    have huv₁ := unfoldF_mono fuel hext huv
    have hd0 : ∀ x ∈ lb, x ∉ vkeys ([] : List (Nat × Nat)) := by simp [vkeys]
    have hd1 : ∀ x ∈ lm, x ∉ vkeys ([] : List (Nat × Nat)) := by simp [vkeys]
    have hd2 : ∀ x ∈ lc, x ∉ vkeys ([] : List (Nat × Nat)) := by simp [vkeys]
    obtain ⟨hmap1, _⟩ := isEqualF_eq_structEqF fuel hub₁ hnb cloned [] hd0
    rw [structEqF_eq_treeEqB fuel hub₁ hcu] at hmap1
    obtain ⟨p1, he1⟩ := optMapFst_extract hmap1
    obtain ⟨hmap2, _⟩ := isEqualF_eq_structEqF fuel hum₁ hnm cloned [] hd1
    rw [structEqF_eq_treeEqB fuel hum₁ hcu] at hmap2
    obtain ⟨p2, he2⟩ := optMapFst_extract hmap2
    simp only [he1, he2] at hr
    -- the final backing value is deeply equal to v in either branch
    have hgoal1 : ∀ (bv : JVal), (bv = sget s.propertyRefs prop ∨ bv = cloned) →
        (isEqualF fuel h₁ bv v []).map Prod.fst
          = some (treeEqB tb tv) ∨
        (isEqualF fuel h₁ bv v []).map Prod.fst = some true := by
      intro bv hbv
      rcases hbv with rfl | rfl
      · obtain ⟨hm, _⟩ := isEqualF_eq_structEqF fuel hub₁ hnb v [] hd0
        rw [structEqF_eq_treeEqB fuel hub₁ huv₁] at hm
        exact Or.inl hm
      · obtain ⟨hm, _⟩ := isEqualF_eq_structEqF fuel hcu hcn v [] hd2
        rw [structEqF_eq_treeEqB fuel hcu huv₁,
          treeEqB_refl_of_unfold fuel huv₁] at hm
        exact Or.inr hm
    have hgoal2 : (isEqualF fuel h₁ (sget s.mobx prop) v []).map Prod.fst
        = some (treeEqB tm tv) := by
      obtain ⟨hm, _⟩ := isEqualF_eq_structEqF fuel hum₁ hnm v [] hd1
      rw [structEqF_eq_treeEqB fuel hum₁ huv₁] at hm
      exact hm
    have hclonedNe : ∀ a, v = .ref a → cloned ≠ v := by
      intro a hva
      subst hva
      have hlt : a < s.heap.length := unfoldF_ref_lt huv
      rcases unfoldF_ref_shape huv₁ with ⟨ts, hts⟩ | ⟨tfs, htfs⟩ <;>
      · cases cloned with
        | prim p =>
          exfalso
          cases fuel with
          | zero => exact absurd hc (by simp [cloneValF])
          | succ m =>
            simp only [unfoldF, Option.some.injEq, Prod.mk.injEq] at hcu
            first
              | exact absurd (hts ▸ hcu.1) (by simp)
              | exact absurd (htfs ▸ hcu.1) (by simp)
        | ref ca =>
          have hca : ca ∈ lc := unfoldF_ref_mem hcu
          have hge : s.heap.length ≤ ca := (hcr ca hca).1
          intro hceq
          simp only [JVal.ref.injEq] at hceq
          omega
    cases hE1 : treeEqB tb tv <;> cases hE2 : treeEqB tm tv <;>
      rw [hE1, hE2] at hr <;>
      simp only [Bool.false_eq_true, if_false, if_true, Option.some.injEq,
        reduceIte] at hr <;>
      subst hr
    · -- backing updated to the clone, MobX updated to the clone
      refine ⟨?_, ?_, ?_⟩
      · obtain ⟨hm, _⟩ := isEqualF_eq_structEqF fuel hcu hcn v [] hd2
        rw [structEqF_eq_treeEqB fuel hcu huv₁,
          treeEqB_refl_of_unfold fuel huv₁] at hm
        simpa [sget_sset_self] using hm
      · obtain ⟨hm, _⟩ := isEqualF_eq_structEqF fuel hcu hcn v [] hd2
        rw [structEqF_eq_treeEqB fuel hcu huv₁,
          treeEqB_refl_of_unfold fuel huv₁] at hm
        simpa [sget_sset_self] using hm
      · intro a hva _
        simpa [sget_sset_self] using hclonedNe a hva
    · -- backing updated to the clone, MobX already equal
      refine ⟨?_, ?_, ?_⟩
      · obtain ⟨hm, _⟩ := isEqualF_eq_structEqF fuel hcu hcn v [] hd2
        rw [structEqF_eq_treeEqB fuel hcu huv₁,
          treeEqB_refl_of_unfold fuel huv₁] at hm
        simpa [sget_sset_self] using hm
      · obtain ⟨hm, _⟩ := isEqualF_eq_structEqF fuel hum₁ hnm v [] hd1
        rw [structEqF_eq_treeEqB fuel hum₁ huv₁] at hm
        rw [hE2] at hm
        simpa using hm
      · intro a hva _
        simpa [sget_sset_self] using hclonedNe a hva
    · -- backing already equal, MobX updated to the clone
      refine ⟨?_, ?_, ?_⟩
      · obtain ⟨hm, _⟩ := isEqualF_eq_structEqF fuel hub₁ hnb v [] hd0
        rw [structEqF_eq_treeEqB fuel hub₁ huv₁] at hm
        rw [hE1] at hm
        simpa using hm
      · obtain ⟨hm, _⟩ := isEqualF_eq_structEqF fuel hcu hcn v [] hd2
        rw [structEqF_eq_treeEqB fuel hcu huv₁,
          treeEqB_refl_of_unfold fuel huv₁] at hm
        simpa [sget_sset_self] using hm
      · intro a hva hne
        simpa using hne
    · -- both already equal: nothing stored, both still equal to v
      refine ⟨?_, ?_, ?_⟩
      · obtain ⟨hm, _⟩ := isEqualF_eq_structEqF fuel hub₁ hnb v [] hd0
        rw [structEqF_eq_treeEqB fuel hub₁ huv₁] at hm
        rw [hE1] at hm
        simpa using hm
      · obtain ⟨hm, _⟩ := isEqualF_eq_structEqF fuel hum₁ hnm v [] hd1
        rw [structEqF_eq_treeEqB fuel hum₁ huv₁] at hm
        rw [hE2] at hm
        simpa using hm
      · intro a hva hne
        simpa using hne
/-- Witness for the C1 theorem at a concrete bridge state. -/
theorem dataSlotSet_deep_syncs_and_clones_witness :
    ((isEqualF 3 c1Result.state.heap (sget c1Result.state.propertyRefs "p")
        (.prim (.num (.int 5))) []).map Prod.fst = some true) ∧
    ((isEqualF 3 c1Result.state.heap (sget c1Result.state.mobx "p")
        (.prim (.num (.int 5))) []).map Prod.fst = some true) ∧
    (∀ a, (.prim (.num (.int 5)) : JVal) = .ref a →
      sget c1State.propertyRefs "p" ≠ .prim (.num (.int 5)) →
      sget c1Result.state.propertyRefs "p" ≠ .prim (.num (.int 5))) :=
  dataSlotSet_deep_syncs_and_clones 3 c1State "p" (.prim (.num (.int 5)))
    _ _ _ [] [] [] c1Result rfl (by decide) rfl (by decide) rfl rfl
theorem not_mem_guardErase (l : List String) (p : String) :
    p ∉ guardErase l p := by
  simp [guardErase, List.mem_filter]

/-- **C3** — writable-derived (getter/setter pair) members with lazy
read-only detection: a write that throws the MobX `'not possible to assign'`
signal adds the name to the read-only-detected set and raises the
computed-property assignment error; once a name is in the set, every write
fails fast with the same error, leaves the state unchanged and never
attempts the underlying source write; and any other error from the
underlying write is swallowed with a warning naming the property, without
being rethrown and without marking the member read-only. -/
theorem lazyPairSet_read_only_detection :
    (∀ (s : BridgeState) (prop : String) (v : JVal),
      prop ∉ s.readOnlyDetected →
      (lazyPairSet true prop v (some .notPossibleToAssign) s).thrown
          = some (cannotAssignMsg prop) ∧
      prop ∈ (lazyPairSet true prop v
          (some .notPossibleToAssign) s).state.readOnlyDetected ∧
      (lazyPairSet true prop v
          (some .notPossibleToAssign) s).attemptedSourceWrite = true) ∧
    (∀ (s : BridgeState) (prop : String) (v : JVal) (beh : Option JsError),
      prop ∈ s.readOnlyDetected →
      lazyPairSet true prop v beh s
        = ⟨s, [], some (cannotAssignMsg prop), false⟩) ∧
    (∀ (s : BridgeState) (prop : String) (v : JVal) (m : String),
      prop ∉ s.readOnlyDetected →
      (lazyPairSet true prop v (some (.other m)) s).thrown = none ∧
      (lazyPairSet true prop v (some (.other m)) s).warnings
        = [failedToSetMsg prop m] ∧
      (lazyPairSet true prop v (some (.other m)) s).state.readOnlyDetected
        = s.readOnlyDetected) := by
  refine ⟨?_, ?_, ?_⟩
  · intro s prop v hmem
    simp [lazyPairSet, hmem]
  · intro s prop v beh hmem
    simp [lazyPairSet, hmem]
  · intro s prop v m hmem
    simp [lazyPairSet, hmem]

/-- Witness for the C3 theorem at concrete states. -/
theorem lazyPairSet_read_only_detection_witness :
    ((lazyPairSet true "q" (.prim .undef)
        (some .notPossibleToAssign) c3StateFresh).thrown
      = some (cannotAssignMsg "q") ∧
     "q" ∈ (lazyPairSet true "q" (.prim .undef)
        (some .notPossibleToAssign) c3StateFresh).state.readOnlyDetected ∧
     (lazyPairSet true "q" (.prim .undef)
        (some .notPossibleToAssign) c3StateFresh).attemptedSourceWrite
       = true) ∧
    (lazyPairSet true "q" (.prim .undef) none c3StateDetected
      = ⟨c3StateDetected, [], some (cannotAssignMsg "q"), false⟩) ∧
    ((lazyPairSet true "q" (.prim .undef)
        (some (.other "boom")) c3StateFresh).thrown = none ∧
     (lazyPairSet true "q" (.prim .undef)
        (some (.other "boom")) c3StateFresh).warnings
       = [failedToSetMsg "q" "boom"] ∧
     (lazyPairSet true "q" (.prim .undef)
        (some (.other "boom")) c3StateFresh).state.readOnlyDetected
       = c3StateFresh.readOnlyDetected) :=
  ⟨lazyPairSet_read_only_detection.1 c3StateFresh "q" (.prim .undef)
    (by decide),
   lazyPairSet_read_only_detection.2.1 c3StateDetected "q" (.prim .undef)
    none (by decide),
   lazyPairSet_read_only_detection.2.2 c3StateFresh "q" (.prim .undef)
    "boom" (by decide)⟩

/-- **C4** — every assignment to a read-only-derived (getter-only) member
throws the computed-property assignment error synchronously, in every state
(so both before and after any prior read — reads do not change the bridge
state), and every assignment to a writable-derived member previously
confirmed read-only does the same without attempting the underlying
write. -/
theorem computed_assignment_always_throws :
    (∀ (s : BridgeState) (prop : String),
      getterOnlySet prop s = ⟨s, [], some (cannotAssignMsg prop), false⟩) ∧
    (∀ (s : BridgeState) (prop : String) (v : JVal) (beh : Option JsError),
      prop ∈ s.readOnlyDetected →
      lazyPairSet true prop v beh s
        = ⟨s, [], some (cannotAssignMsg prop), false⟩) := by
  refine ⟨fun s prop => rfl, ?_⟩
  intro s prop v beh hmem
  simp [lazyPairSet, hmem]

/-- Witness for the C4 theorem. -/
theorem computed_assignment_always_throws_witness :
    (getterOnlySet "q" c3StateDetected
      = ⟨c3StateDetected, [], some (cannotAssignMsg "q"), false⟩) ∧
    (lazyPairSet true "q" (.prim .null) (some .notPossibleToAssign)
        c3StateDetected
      = ⟨c3StateDetected, [], some (cannotAssignMsg "q"), false⟩) :=
  ⟨computed_assignment_always_throws.1 c3StateDetected "q",
   computed_assignment_always_throws.2 c3StateDetected "q" (.prim .null)
    (some .notPossibleToAssign) (by decide)⟩

/-- **C6** — with `allowDirectMutation` disabled, every write path (top-level
data slot, writable-derived, write-only trigger, and any nested field
through the deep proxy) leaves the bridge state — backing refs, heap and
source object — completely unchanged, emits exactly one diagnostic warning,
throws nothing, and (for the proxy trap) reports success to the JS runtime
so the caller's assignment returns normally; no flush is scheduled. -/
theorem direct_mutation_disabled_no_writes :
    (∀ (fuel : Nat) (s : BridgeState) (prop : String) (v : JVal)
      (beh : Option JsError),
      dataSlotSet false fuel prop v beh s
        = some ⟨s, ["Direct mutation of '" ++ prop ++ "' is disabled"],
            none, false⟩) ∧
    (∀ (s : BridgeState) (prop : String) (v : JVal) (beh : Option JsError),
      lazyPairSet false prop v beh s
        = ⟨s, ["Direct mutation of '" ++ prop ++ "' is disabled"],
           none, false⟩) ∧
    (∀ (s : BridgeState) (prop : String) (v : JVal) (beh : Option JsError),
      writeOnlySet false prop v beh s
        = ⟨s, ["Direct mutation of setter '" ++ prop ++ "' is disabled"],
           none, false⟩) ∧
    (∀ (s : BridgeState) (prop : String) (addr : Nat) (key : JKey)
      (v : JVal) (pending : Bool),
      deepProxySet false prop addr key v pending s
        = ⟨s, ["Direct mutation of '" ++ prop ++ "." ++ key.toString ++
              "' is disabled"], true, false⟩) :=
  ⟨fun _ _ _ _ _ => rfl, fun _ _ _ _ => rfl, fun _ _ _ _ => rfl,
   fun _ _ _ _ _ _ => rfl⟩

/-- **C10** — for every write path (data-slot set, writable-derived set,
write-only-trigger set, deep-proxy flush) and every outcome of the
underlying source assignment (success or any thrown error), the
`updatingFromVue` echo-guard set does not contain the member name once the
write path completes: the guard is added before the assignment and removed
in the `finally`, so membership never outlives the single underlying
write. -/
theorem echo_guard_cleared_after_write :
    (∀ (fuel : Nat) (s : BridgeState) (prop : String) (v : JVal)
      (beh : Option JsError) (r : OpResult), prop ∉ s.updatingFromVue →
      dataSlotSet true fuel prop v beh s = some r →
      prop ∉ r.state.updatingFromVue) ∧
    (∀ (s : BridgeState) (prop : String) (v : JVal) (beh : Option JsError),
      prop ∉ s.updatingFromVue →
      prop ∉ (lazyPairSet true prop v beh s).state.updatingFromVue) ∧
    (∀ (s : BridgeState) (prop : String) (v : JVal) (beh : Option JsError),
      prop ∉ s.updatingFromVue →
      prop ∉ (writeOnlySet true prop v beh s).state.updatingFromVue) ∧
    (∀ (fuel : Nat) (s : BridgeState) (prop : String) (beh : Option JsError)
      (r : OpResult), prop ∉ s.updatingFromVue →
      flushStep fuel prop beh s = some r →
      prop ∉ r.state.updatingFromVue) := by
  refine ⟨?_, ?_, ?_, ?_⟩
  · intro fuel s prop v beh r hg hr
    simp only [dataSlotSet, Bool.not_true, Bool.false_eq_true, if_false] at hr
    cases hc : cloneValF fuel s.heap v with
    | none => rw [hc] at hr; exact absurd hr (by simp)
    | some ch =>
      obtain ⟨cloned, h₁⟩ := ch
      simp only [hc] at hr
      cases he1 : isEqualF fuel h₁ (sget s.propertyRefs prop) cloned [] with
      | none => rw [he1] at hr; exact absurd hr (by simp)
      | some e1 =>
        obtain ⟨eqRef, p1⟩ := e1
        simp only [he1] at hr
        cases he2 : isEqualF fuel h₁ (sget s.mobx prop) cloned [] with
        | none => rw [he2] at hr; exact absurd hr (by simp)
        | some e2 =>
          obtain ⟨eqMobx, p2⟩ := e2
          simp only [he2] at hr
          cases eqMobx with
          | true =>
            simp only [if_true, Option.some.injEq] at hr
            subst hr
            exact hg
          | false =>
            cases beh with
            | none =>
              simp only [Bool.false_eq_true, if_false,
                Option.some.injEq] at hr
              subst hr
              exact not_mem_guardErase _ prop
            | some e =>
              simp only [Bool.false_eq_true, if_false,
                Option.some.injEq] at hr
              subst hr
              exact not_mem_guardErase _ prop
  · intro s prop v beh hg
    by_cases hmem : prop ∈ s.readOnlyDetected
    · simp [lazyPairSet, hmem, hg]
    · cases beh with
      | none => simp [lazyPairSet, hmem, not_mem_guardErase]
      | some e =>
        cases e with
        | notPossibleToAssign =>
          simp [lazyPairSet, hmem, not_mem_guardErase]
        | other m => simp [lazyPairSet, hmem, not_mem_guardErase]
  · intro s prop v beh hg
    cases beh with
    | none => simp [writeOnlySet, not_mem_guardErase]
    | some e => simp [writeOnlySet, not_mem_guardErase]
  · intro fuel s prop beh r hg hr
    simp only [flushStep] at hr
    cases hc : cloneValF fuel s.heap (sget s.propertyRefs prop) with
    | none => rw [hc] at hr; exact absurd hr (by simp)
    | some ch =>
      obtain ⟨cloned, h₁⟩ := ch
      simp only [hc] at hr
      cases beh with
      | none =>
        simp only [Option.some.injEq] at hr
        subst hr
        exact not_mem_guardErase _ prop
      | some e =>
        simp only [Option.some.injEq] at hr
        subst hr
        exact not_mem_guardErase _ prop

/-- Witness for the C10 theorem at a concrete state: all four write paths,
with a throwing source assignment where applicable. -/
theorem echo_guard_cleared_after_write_witness :
    (∀ (r : OpResult),
      dataSlotSet true 3 "p" (.prim (.num (.int 5)))
        (some .notPossibleToAssign) c1State = some r →
      "p" ∉ r.state.updatingFromVue) ∧
    ("q" ∉ (lazyPairSet true "q" (.prim .undef) (some (.other "boom"))
        c3StateFresh).state.updatingFromVue) ∧
    ("q" ∉ (writeOnlySet true "q" (.prim .undef) (some (.other "boom"))
        c3StateFresh).state.updatingFromVue) ∧
    (∀ (r : OpResult),
      flushStep 3 "p" (some (.other "boom")) c1State = some r →
      "p" ∉ r.state.updatingFromVue) :=
  ⟨fun r hr => echo_guard_cleared_after_write.1 3 c1State "p"
      (.prim (.num (.int 5))) (some .notPossibleToAssign) r (by decide) hr,
   echo_guard_cleared_after_write.2.1 c3StateFresh "q" (.prim .undef)
      (some (.other "boom")) (by decide),
   echo_guard_cleared_after_write.2.2.1 c3StateFresh "q" (.prim .undef)
      (some (.other "boom")) (by decide),
   fun r hr => echo_guard_cleared_after_write.2.2.2 3 c1State "p"
      (some (.other "boom")) r (by decide) hr⟩
theorem mem_runDetect_sel (os : ObjSpec)
    (d : MemberSpec → String → Bool × List ClsEvent) (p : String) :
    ∀ props : List String, p ∈ (runDetect os props d).1 ↔
      p ∈ props ∧ (d (os.member p) p).1 = true := by
  intro props
  induction props with
  | nil => simp [runDetect]
  | cons q rest ih =>
    cases hd : d (os.member q) q with
    | mk b ev =>
      cases hr : runDetect os rest d with
      | mk sel evs =>
        rw [hr] at ih
        simp only [runDetect, hd, hr]
        by_cases hpq : p = q
        · subst hpq
          cases b with
          | false => simp [ih, hd]
          | true => simp [ih, hd]
        · cases b with
          | false => simp [List.mem_cons, hpq, ih]
          | true => simp [List.mem_cons, hpq, ih]

theorem mem_runDetect_ev (os : ObjSpec)
    (d : MemberSpec → String → Bool × List ClsEvent) (e : ClsEvent) :
    ∀ props : List String, e ∈ (runDetect os props d).2 →
      ∃ q, q ∈ props ∧ e ∈ (d (os.member q) q).2 := by
  intro props
  induction props with
  | nil => simp [runDetect]
  | cons q rest ih =>
    cases hd : d (os.member q) q with
    | mk b ev =>
      cases hr : runDetect os rest d with
      | mk sel evs =>
        rw [hr] at ih
        simp only [runDetect, hd, hr, List.mem_append]
        rintro (h | h)
        · exact ⟨q, List.mem_cons_self q rest, by rw [hd]; exact h⟩
        · obtain ⟨q', hq', he⟩ := ih h
          exact ⟨q', List.mem_cons_of_mem _ hq', he⟩

theorem categorizeMembers_eq (os : ObjSpec) :
    categorizeMembers os =
      (⟨(runDetect os (candidateNames os) detectGetterM).1,
        (runDetect os (candidateNames os) detectSetterM).1,
        (runDetect os (candidateNames os) detectPropertyM).1,
        (runDetect os (candidateNames os) detectMethodM).1⟩,
       .getOwnNames :: .getProtoNames ::
         ((runDetect os (candidateNames os) detectGetterM).2 ++
          (runDetect os (candidateNames os) detectSetterM).2 ++
          (runDetect os (candidateNames os) detectPropertyM).2 ++
          (runDetect os (candidateNames os) detectMethodM).2)) := by
  simp only [categorizeMembers]

theorem mem_getters_iff (os : ObjSpec) (p : String) :
    p ∈ (categorizeMembers os).1.getters ↔
      p ∈ candidateNames os ∧ (detectGetterM (os.member p) p).1 = true := by
  rw [categorizeMembers_eq]
  exact mem_runDetect_sel os detectGetterM p (candidateNames os)

theorem mem_setters_iff (os : ObjSpec) (p : String) :
    p ∈ (categorizeMembers os).1.setters ↔
      p ∈ candidateNames os ∧ (detectSetterM (os.member p) p).1 = true := by
  rw [categorizeMembers_eq]
  exact mem_runDetect_sel os detectSetterM p (candidateNames os)

theorem mem_properties_iff (os : ObjSpec) (p : String) :
    p ∈ (categorizeMembers os).1.properties ↔
      p ∈ candidateNames os ∧ (detectPropertyM (os.member p) p).1 = true := by
  rw [categorizeMembers_eq]
  exact mem_runDetect_sel os detectPropertyM p (candidateNames os)

theorem mem_methods_iff (os : ObjSpec) (p : String) :
    p ∈ (categorizeMembers os).1.methods ↔
      p ∈ candidateNames os ∧ (detectMethodM (os.member p) p).1 = true := by
  rw [categorizeMembers_eq]
  exact mem_runDetect_sel os detectMethodM p (candidateNames os)

theorem contains_true_iff (l : List String) (a : String) :
    l.contains a = true ↔ a ∈ l := by
  induction l with
  | nil => simp
  | cons x xs ih => simp [List.contains_cons, ih]

theorem detectPropertyM_excl (m : MemberSpec) (p : String) :
    (detectPropertyM m p).1 = true →
    (detectGetterM m p).1 = false ∧ (detectSetterM m p).1 = false ∧
    (detectMethodM m p).1 = false := by
  obtain ⟨hg, hs, vf, rt, ic, io⟩ := m
  rcases io with _ | (_ | _) <;> rcases ic with _ | (_ | _) <;>
    cases vf <;> cases rt <;> cases hg <;> cases hs <;>
    simp [detectPropertyM, detectGetterM, detectSetterM, detectMethodM]

theorem detectSetterM_not_method (m : MemberSpec) (p : String) :
    (detectSetterM m p).1 = true → (detectMethodM m p).1 = false := by
  obtain ⟨hg, hs, vf, rt, ic, io⟩ := m
  rcases io with _ | (_ | _) <;> rcases ic with _ | (_ | _) <;>
    cases vf <;> cases rt <;> cases hg <;> cases hs <;>
    simp [detectSetterM, detectMethodM]

theorem callSetter_notin_getterM (m : MemberSpec) (p q : String) :
    ClsEvent.callSetter q ∉ (detectGetterM m p).2 := by
  obtain ⟨hg, hs, vf, rt, ic, io⟩ := m
  rcases io with _ | (_ | _) <;> rcases ic with _ | (_ | _) <;>
    cases hg <;> simp [detectGetterM]

theorem callSetter_notin_setterM (m : MemberSpec) (p q : String) :
    ClsEvent.callSetter q ∉ (detectSetterM m p).2 := by
  obtain ⟨hg, hs, vf, rt, ic, io⟩ := m
  rcases io with _ | (_ | _) <;> rcases ic with _ | (_ | _) <;>
    cases vf <;> cases rt <;> cases hg <;> cases hs <;> simp [detectSetterM]

theorem callSetter_notin_propertyM (m : MemberSpec) (p q : String) :
    ClsEvent.callSetter q ∉ (detectPropertyM m p).2 := by
  obtain ⟨hg, hs, vf, rt, ic, io⟩ := m
  rcases io with _ | (_ | _) <;> rcases ic with _ | (_ | _) <;>
    cases vf <;> cases rt <;> simp [detectPropertyM]

theorem callSetter_notin_methodM (m : MemberSpec) (p q : String) :
    ClsEvent.callSetter q ∉ (detectMethodM m p).2 := by
  obtain ⟨hg, hs, vf, rt, ic, io⟩ := m
  cases rt <;> simp [detectMethodM]

theorem computed_setter_candidacy (hg hs vf rt : Bool) (io : Option Bool)
    (p : String) :
    (detectSetterM ⟨hg, hs, vf, rt, some true, io⟩ p).1 = true ↔
      hs = true ∧ hg = true ∧ rt = false ∧ vf = false := by
  cases hg <;> cases hs <;> cases vf <;> cases rt <;>
    rcases io with _ | (_ | _) <;> simp [detectSetterM]

/-- **C7** is refuted as stated: classification does not partition the
filtered candidate names into the five categories.  On `c7Spec`, member `m`
(a computed member whose value is a function) lands in two categories
(read-only derived and callable), and the inert member `n` lands in none. -/
theorem categorize_partition_counterexample :
    ¬ (∀ (os : ObjSpec) (p : String), p ∈ candidateNames os →
        categoryCount os p = 1) := by
  intro h
  exact absurd (h c7Spec "m" (by decide)) (by decide)

/-- **C7 (amended)** — the four write-mode categories (data slot, read-only
derived, writable derived, write-only trigger) are pairwise disjoint, data
slots and write-only triggers are also disjoint from callables, and the
derived split is exact: the detected getters are exactly the disjoint union
of the read-only derived and the writable derived names.  (The original
five-way partition fails in two ways: a derived member whose value is a
function is also classified callable, and a candidate name matching no
detector lands in no category.) -/
theorem categorize_partition_amended (os : ObjSpec) (p : String) :
    (p ∈ (categorizeMembers os).1.properties →
      p ∉ gettersOnly (categorizeMembers os).1 ∧
      p ∉ getterSetterPairs (categorizeMembers os).1 ∧
      p ∉ settersOnly (categorizeMembers os).1 ∧
      p ∉ (categorizeMembers os).1.methods) ∧
    (p ∈ gettersOnly (categorizeMembers os).1 →
      p ∉ getterSetterPairs (categorizeMembers os).1 ∧
      p ∉ settersOnly (categorizeMembers os).1) ∧
    (p ∈ getterSetterPairs (categorizeMembers os).1 →
      p ∉ settersOnly (categorizeMembers os).1) ∧
    (p ∈ settersOnly (categorizeMembers os).1 →
      p ∉ (categorizeMembers os).1.methods) ∧
    (p ∈ (categorizeMembers os).1.getters ↔
      p ∈ gettersOnly (categorizeMembers os).1 ∨
      p ∈ getterSetterPairs (categorizeMembers os).1) := by
  refine ⟨?_, ?_, ?_, ?_, ?_⟩
  · intro hp
    obtain ⟨hpc, hpd⟩ := (mem_properties_iff os p).mp hp
    obtain ⟨hgf, hsf, hmf⟩ := detectPropertyM_excl (os.member p) p hpd
    have hng : p ∉ (categorizeMembers os).1.getters := by
      intro hcon
      rw [(mem_getters_iff os p).mp hcon |>.2] at hgf
      exact Bool.noConfusion hgf
    have hns : p ∉ (categorizeMembers os).1.setters := by
      intro hcon
      rw [(mem_setters_iff os p).mp hcon |>.2] at hsf
      exact Bool.noConfusion hsf
    refine ⟨?_, ?_, ?_, ?_⟩
    · intro hcon; exact hng (List.mem_filter.mp hcon).1
    · intro hcon; exact hng (List.mem_filter.mp hcon).1
    · intro hcon; exact hns (List.mem_filter.mp hcon).1
    · intro hcon
      rw [(mem_methods_iff os p).mp hcon |>.2] at hmf
      exact Bool.noConfusion hmf
  · intro hp
    obtain ⟨hg, hnc⟩ := List.mem_filter.mp hp
    constructor
    · intro hcon
      obtain ⟨_, hc⟩ := List.mem_filter.mp hcon
      rw [hc] at hnc
      exact Bool.noConfusion hnc
    · intro hcon
      obtain ⟨hs, _⟩ := List.mem_filter.mp hcon
      rw [(contains_true_iff _ _).mpr hs] at hnc
      exact Bool.noConfusion hnc
  · intro hp
    obtain ⟨hg, hc⟩ := List.mem_filter.mp hp
    intro hcon
    obtain ⟨_, hng⟩ := List.mem_filter.mp hcon
    rw [(contains_true_iff _ _).mpr hg] at hng
    exact Bool.noConfusion hng
  · intro hp
    obtain ⟨hs, _⟩ := List.mem_filter.mp hp
    intro hcon
    obtain ⟨_, hsd⟩ := (mem_setters_iff os p).mp hs
    obtain ⟨_, hmd⟩ := (mem_methods_iff os p).mp hcon
    rw [detectSetterM_not_method (os.member p) p hsd] at hmd
    exact Bool.noConfusion hmd
  · constructor
    · intro hg
      by_cases hc : (categorizeMembers os).1.setters.contains p = true
      · exact Or.inr (List.mem_filter.mpr ⟨hg, hc⟩)
      · refine Or.inl (List.mem_filter.mpr ⟨hg, ?_⟩)
        simp only [Bool.not_eq_true] at hc
        rw [hc]
        decide
    · rintro (h | h) <;> exact (List.mem_filter.mp h).1

/-- Witness for the C7 amended theorem: on `c7Spec`, `m` is read-only
derived, hence in neither the writable-derived nor the write-only set. -/
theorem categorize_partition_amended_witness :
    "m" ∉ getterSetterPairs (categorizeMembers c7Spec).1 ∧
    "m" ∉ settersOnly (categorizeMembers c7Spec).1 :=
  (categorize_partition_amended c7Spec "m").2.1 (by decide)

/-- **C8** — classification performs no setter invocation on the source
object: no `callSetter` event ever appears in the inspection trace of
`categorizeMembers`, for any object and any member name; and for a computed
member, derived-with-write candidacy is decided from both accessors being
present alone (guarded only by the value read used to exclude functions),
with no writability test. -/
theorem classification_no_setter_invocation (os : ObjSpec) (p : String) :
    ClsEvent.callSetter p ∉ (categorizeMembers os).2 ∧
    ((os.member p).isComputedR = some true →
      ((detectSetterM (os.member p) p).1 = true ↔
        (os.member p).hasSetter = true ∧ (os.member p).hasGetter = true ∧
        (os.member p).readThrows = false ∧
        (os.member p).valueIsFunction = false)) := by
  constructor
  · rw [categorizeMembers_eq]
    intro hmem
    simp only [List.mem_cons, List.mem_append] at hmem
    rcases hmem with h | h | ((hG | hS) | hP) | hM
    · exact ClsEvent.noConfusion h
    · exact ClsEvent.noConfusion h
    · obtain ⟨q, _, he⟩ := mem_runDetect_ev os detectGetterM _ _ hG
      exact callSetter_notin_getterM (os.member q) q p he
    · obtain ⟨q, _, he⟩ := mem_runDetect_ev os detectSetterM _ _ hS
      exact callSetter_notin_setterM (os.member q) q p he
    · obtain ⟨q, _, he⟩ := mem_runDetect_ev os detectPropertyM _ _ hP
      exact callSetter_notin_propertyM (os.member q) q p he
    · obtain ⟨q, _, he⟩ := mem_runDetect_ev os detectMethodM _ _ hM
      exact callSetter_notin_methodM (os.member q) q p he
  · intro hc
    have he : (⟨(os.member p).hasGetter, (os.member p).hasSetter,
        (os.member p).valueIsFunction, (os.member p).readThrows, some true,
        (os.member p).isObservableR⟩ : MemberSpec) = os.member p := by
      rw [← hc]
    rw [← he]
    exact computed_setter_candidacy _ _ _ _ _ p

/-- Witness for the C8 theorem on the concrete object `c7Spec` at the
computed member `m`. -/
theorem classification_no_setter_invocation_witness :
    ClsEvent.callSetter "m" ∉ (categorizeMembers c7Spec).2 ∧
    ((detectSetterM (c7Spec.member "m") "m").1 = true ↔
      (c7Spec.member "m").hasSetter = true ∧
      (c7Spec.member "m").hasGetter = true ∧
      (c7Spec.member "m").readThrows = false ∧
      (c7Spec.member "m").valueIsFunction = false) :=
  ⟨(classification_no_setter_invocation c7Spec "m").1,
   (classification_no_setter_invocation c7Spec "m").2 (by decide)⟩
theorem mobxToVueUpdater_frame {fuel : Nat} {prop : String}
    {os os₁ : ObsState} (h : mobxToVueUpdater fuel prop os = some os₁) :
    os₁.deepSubs = os.deepSubs ∧ os₁.deepSubTarget = os.deepSubTarget ∧
    os₁.disposed = os.disposed ∧ os₁.nextSubId = os.nextSubId ∧
    os₁.bs.mobx = os.bs.mobx := by
  simp only [mobxToVueUpdater] at h
  by_cases hg : prop ∈ os.bs.updatingFromVue
  · rw [if_pos hg] at h
    simp only [Option.some.injEq] at h
    subst h
    exact ⟨rfl, rfl, rfl, rfl, rfl⟩
  · rw [if_neg hg] at h
    cases hc : cloneValF fuel os.bs.heap (sget os.bs.mobx prop) with
    | none => rw [hc] at h; exact absurd h (by simp)
    | some ch =>
      obtain ⟨next, h₁⟩ := ch
      simp only [hc] at h
      cases he : isEqualF fuel h₁ (sget os.bs.propertyRefs prop) next [] with
      | none => rw [he] at h; exact absurd h (by simp)
      | some e =>
        obtain ⟨eq, vis⟩ := e
        simp only [he, Option.some.injEq] at h
        subst h
        exact ⟨rfl, rfl, rfl, rfl, rfl⟩

theorem slookup_mem_snd : ∀ {l : List (String × Nat)} {k : String} {v : Nat},
    slookup l k = some v → v ∈ l.map Prod.snd := by
  intro l
  induction l with
  | nil => intro k v h; exact absurd h (by simp [slookup])
  | cons kv rest ih =>
    intro k v h
    obtain ⟨k₀, v₀⟩ := kv
    simp only [slookup] at h
    by_cases hk : k₀ = k
    · rw [if_pos hk] at h
      simp only [Option.some.injEq] at h
      subst h
      simp
    · rw [if_neg hk] at h
      simp only [List.map_cons, List.mem_cons]
      exact Or.inr (ih h)

/-- **C5** — reference-reassignment handling for data slots.  First part:
when the direct-change subscription fires as an update whose new value is an
object, the previously installed deep subscription for the slot (if any) is
disposed and a fresh one (a handle never used before) is installed against
the new value.  Second part: when such a deep subscription then fires (a
mutation on the observed value), the shared updater leaves the Vue backing
ref deeply equal (`isEqual`) to the source member. -/
theorem deep_observe_resubscription :
    (∀ (fuel : Nat) (prop : String) (nv : Nat) (newValue : JVal)
      (os os' : ObsState),
      newValue = .ref nv →
      sget os.bs.mobx prop = newValue →
      (∀ id ∈ os.deepSubs.map Prod.snd, id < os.nextSubId) →
      directChangeFire fuel prop true newValue os = some os' →
      ∃ newId, slookup os'.deepSubs prop = some newId ∧
        nlookup os'.deepSubTarget newId = some newValue ∧
        ∀ oldId, slookup os.deepSubs prop = some oldId →
          oldId ∈ os'.disposed ∧ newId ≠ oldId) ∧
    (∀ (fuel : Nat) (prop : String) (os os'' : ObsState)
      (tb tm : Tree) (lb lm : List Nat),
      prop ∉ os.bs.updatingFromVue →
      unfoldF fuel os.bs.heap (sget os.bs.propertyRefs prop)
        = some (tb, lb) →
      lb.Nodup →
      unfoldF fuel os.bs.heap (sget os.bs.mobx prop) = some (tm, lm) →
      lm.Nodup →
      deepChangeFire fuel prop os = some os'' →
      (isEqualF fuel os''.bs.heap (sget os''.bs.propertyRefs prop)
          (sget os''.bs.mobx prop) []).map Prod.fst = some true) := by
  constructor
  · intro fuel prop nv newValue os os' hnew hmobx hfresh hr
    subst hnew
    simp only [directChangeFire] at hr
    cases hm : mobxToVueUpdater fuel prop os with
    | none => rw [hm] at hr; exact absurd hr (by simp)
    | some os₁ =>
      simp only [hm, if_true, Option.some.injEq] at hr
      subst hr
      obtain ⟨hds, hdt, hdi, hni, hmx⟩ := mobxToVueUpdater_frame hm
      have hm1 : sget os₁.bs.mobx prop = .ref nv := by rw [hmx]; exact hmobx
      cases hsl : slookup os₁.deepSubs prop with
      | some oldId' =>
        simp only [setupDeepObserve, hsl, hm1]
        refine ⟨os₁.nextSubId, by simp [slookup], by simp [nlookup], ?_⟩
        intro oldId hold
        rw [hds, hold] at hsl
        obtain rfl : oldId = oldId' := by
          have h2 := hsl.symm
          simp only [Option.some.injEq] at h2
          exact h2.symm
        constructor
        · simp
        · have hlt := hfresh oldId (slookup_mem_snd hold)
          rw [hni]
          omega
      | none =>
        simp only [setupDeepObserve, hsl, hm1]
        refine ⟨os₁.nextSubId, by simp [slookup], by simp [nlookup], ?_⟩
        intro oldId hold
        rw [hds, hold] at hsl
        exact absurd hsl (by simp)
  · intro fuel prop os os'' tb tm lb lm hguard hub hnb hum hnm hr
    simp only [deepChangeFire, mobxToVueUpdater] at hr
    rw [if_neg hguard] at hr
    cases hc : cloneValF fuel os.bs.heap (sget os.bs.mobx prop) with
    | none => rw [hc] at hr; exact absurd hr (by simp)
    | some ch =>
      obtain ⟨next, h₁⟩ := ch
      simp only [hc] at hr
      have hext : HeapExt os.bs.heap h₁ := cloneValF_ext fuel hc
      obtain ⟨lc, hcu, hcn, hcr⟩ :=
        cloneValF_unfold fuel hc hum (HeapExt.rfl h₁)
      have hub₁ := unfoldF_mono fuel hext hub
      have hum₁ := unfoldF_mono fuel hext hum
      have hd0 : ∀ x ∈ lb, x ∉ vkeys ([] : List (Nat × Nat)) := by
        simp [vkeys]
      have hd2 : ∀ x ∈ lc, x ∉ vkeys ([] : List (Nat × Nat)) := by
        simp [vkeys]
      obtain ⟨hmap1, _⟩ := isEqualF_eq_structEqF fuel hub₁ hnb next [] hd0
      rw [structEqF_eq_treeEqB fuel hub₁ hcu] at hmap1
      obtain ⟨p1, he1⟩ := optMapFst_extract hmap1
      simp only [he1, Option.some.injEq] at hr
      subst hr
      cases hE : treeEqB tb tm with
      | true =>
        obtain ⟨hm2, _⟩ :=
          isEqualF_eq_structEqF fuel hub₁ hnb (sget os.bs.mobx prop) [] hd0
        rw [structEqF_eq_treeEqB fuel hub₁ hum₁, hE] at hm2
        simpa [hE] using hm2
      | false =>
        obtain ⟨hm2, _⟩ :=
          isEqualF_eq_structEqF fuel hcu hcn (sget os.bs.mobx prop) [] hd2
        rw [structEqF_eq_treeEqB fuel hcu hum₁,
          treeEqB_refl_of_unfold fuel hum₁] at hm2
        simpa [hE, sget_sset_self] using hm2

/-- Witness for the C5 theorem: slot `p` is wholesale-reassigned to the
fresh object `ref 1`; the old deep subscription `0` is disposed, handle `1`
is installed against `ref 1`, and a subsequent deep fire leaves the backing
ref deeply equal to the member. -/
theorem deep_observe_resubscription_witness :
    (∃ newId, slookup c5Out.deepSubs "p" = some newId ∧
      nlookup c5Out.deepSubTarget newId = some (.ref 1) ∧
      ∀ oldId, slookup c5In.deepSubs "p" = some oldId →
        oldId ∈ c5Out.disposed ∧ newId ≠ oldId) ∧
    ((isEqualF 3 c5BOut.bs.heap (sget c5BOut.bs.propertyRefs "p")
        (sget c5BOut.bs.mobx "p") []).map Prod.fst = some true) :=
  ⟨deep_observe_resubscription.1 3 "p" 1 (.ref 1) c5In c5Out rfl rfl
    (by decide) (by decide),
   deep_observe_resubscription.2 3 "p" c5Out c5BOut _ _ [2] [1]
    (by decide) rfl (by decide) rfl (by decide) (by decide)⟩
end MVB
